import Mathlib

/-!
Verification of the MSM batch affine adder (`src/batch_adder.rs`) and the
collision scheduler (`src/collision_state.rs`) of this repository.

The batch adder is embedded generically over the coordinate field `F`
(the source instantiates it at the BLS12-381 base field; the algorithm
itself, as the specification notes, is curve-agnostic and uses only the
field operations).  Machine-integer arithmetic (`usize`, `u32`) is embedded
as `Nat` with explicit bounds; overflow-checked (debug-profile) semantics
are used for the subtractions whose underflow the code can actually hit,
so a Rust panic is modelled as `none` / an explicit fatal result.
-/

namespace ArkMsm

/-- Affine curve point as manipulated by the code: either the distinguished
identity element (the point at infinity, tracked by the `infinity` flag of
`G1Affine` in the source and only ever inspected through `is_zero`), or a
pair of base-field coordinates. -/
inductive G1Affine (F : Type) where
  | zero
  | point (x y : F)
deriving DecidableEq

instance {F : Type} : Inhabited (G1Affine F) := ⟨.zero⟩

/-- Size bound of the Rust `usize` type. -/
def USIZE : Nat := 2 ^ 64

/-- Checked (debug-profile) `usize` subtraction: Rust panics on underflow. -/
def usizeSub (a b : Nat) : Option Nat := if b ≤ a then some (a - b) else none

instance : Fact (Nat.Prime 5) := ⟨by norm_num⟩

variable {F : Type} [Field F] [DecidableEq F]

/-- Scratch state of the batch adder (`src/batch_adder.rs`, lines 14-18):
the running product `inverse_state` and the per-index scratch buffer
`inverses` of length `max_batch_cnt`. -/
structure BatchAdder (F : Type) where
  inverse_state : F
  inverses : List F
deriving DecidableEq

namespace BatchAdder

/-- `BatchAdder::new` (lines 21-26): running product one, scratch buffer of
`max_batch_cnt` ones. -/
def new (max_batch_cnt : Nat) : BatchAdder F :=
  { inverse_state := 1, inverses := List.replicate max_batch_cnt 1 }

/-- `BatchAdder::reset` (lines 71-73): set the running product to one. -/
def reset (b : BatchAdder F) : BatchAdder F :=
  { b with inverse_state := 1 }

/-- `BatchAdder::inverse` (lines 67-69): invert the running product.  The
arkworks `Field::inverse` returns `None` on zero and the code unwraps it,
so inverting a zero state is a fatal error, modelled as `none`. -/
def inverse (b : BatchAdder F) : Option (BatchAdder F) :=
  if b.inverse_state = 0 then none
  else some { b with inverse_state := b.inverse_state⁻¹ }

/-- Accumulation step shared by both branches of phase one
(`src/batch_adder.rs`, lines 113-119): on the first contribution after a
zeroed state record a one and seed the state, otherwise record the state
and fold the delta into it. -/
def phase1Core (b : BatchAdder F) (delta_x : F) (idx : Nat) : BatchAdder F :=
  if b.inverse_state = 0 then
    { inverse_state := delta_x, inverses := b.inverses.set idx 1 }
  else
    { inverse_state := b.inverse_state * delta_x,
      inverses := b.inverses.set idx b.inverse_state }

/-- `BatchAdder::batch_add_phase_one` (lines 88-120).  Identity operands and
`P = -Q` pairs are skipped; a doubling pair substitutes `delta_x = 2*Q.y`.
The index assertion is modelled as `none`. -/
def batch_add_phase_one (b : BatchAdder F) (p q : G1Affine F) (idx : Nat) :
    Option (BatchAdder F) :=
  if idx < b.inverses.length then
    match p, q with
    | .zero, _ => some b
    | _, .zero => some b
    | .point px py, .point qx qy =>
      if qx - px = 0 then
        if qy - py ≠ 0 then some b
        else some (phase1Core b (qy + qy) idx)
      else some (phase1Core b (qx - px) idx)
  else none

/-- Common tail of phase two (`src/batch_adder.rs`, lines 161-169): fold the
delta back into the state, form the slope `s = delta_y * inverse` and write
the chord-tangent result coordinates. -/
def phase2Tail (b : BatchAdder F) (inv delta_x delta_y px qx qy : F) :
    G1Affine F × BatchAdder F :=
  let b2 : BatchAdder F := { b with inverse_state := b.inverse_state * delta_x }
  let s := delta_y * inv
  let ss := s * s
  let px2 := ss - qx - px
  let py2 := s * (qx - px2) - qy
  (.point px2 py2, b2)

/-- `BatchAdder::batch_add_phase_two` (lines 124-170).  Identity operands are
resolved directly, `P = -Q` is forced to the identity, a doubling pair
substitutes `delta_y = 3*Q.x^2`, `delta_x = 2*Q.y`.  The index assertion is
modelled as `none`. -/
def batch_add_phase_two (b : BatchAdder F) (p q : G1Affine F) (idx : Nat) :
    Option (G1Affine F × BatchAdder F) :=
  if h : idx < b.inverses.length then
    match p, q with
    | .zero, .zero => some (.zero, b)
    | .zero, .point qx qy => some (.point qx qy, b)
    | .point px py, .zero => some (.point px py, b)
    | .point px py, .point qx qy =>
      let inv := b.inverses[idx] * b.inverse_state
      if qx - px = 0 then
        if qy - py ≠ 0 then some (.zero, b)
        else some (phase2Tail b inv (qy + qy) (qx * qx + (qx * qx + qx * qx)) px qx qy)
      else some (phase2Tail b inv (qx - px) (qy - py) px qx qy)
  else none

/-- Loop of `batch_add_step_n` phase one (lines 58-60): process indices
`i, i+1, ...` for `k` further steps, reading `dest[i*dest_step]` and
`src[i*src_step]`; out-of-range reads are fatal (`none`). -/
def phase1StepRun (dest src : List (G1Affine F)) (dest_step src_step : Nat) :
    BatchAdder F → Nat → Nat → Option (BatchAdder F)
  | b, _, 0 => some b
  | b, i, k+1 =>
    match dest[i * dest_step]?, src[i * src_step]? with
    | some p, some q =>
      match batch_add_phase_one b p q i with
      | some b2 => phase1StepRun dest src dest_step src_step b2 (i+1) k
      | none => none
    | _, _ => none

/-- Loop of `batch_add_step_n` phase two (lines 62-64): the recursion first
processes the higher indices `i+1, ...` and then index `i`, so the indices
are visited in decreasing order exactly as `(0..len).rev()` does, writing
each result back into `dest[i*dest_step]`. -/
def phase2StepRun (src : List (G1Affine F)) (dest_step src_step : Nat) :
    BatchAdder F → List (G1Affine F) → Nat → Nat →
    Option (List (G1Affine F) × BatchAdder F)
  | b, dest, _, 0 => some (dest, b)
  | b, dest, i, k+1 =>
    match phase2StepRun src dest_step src_step b dest (i+1) k with
    | some (dest2, b2) =>
      match dest2[i * dest_step]?, src[i * src_step]? with
      | some p, some q =>
        match batch_add_phase_two b2 p q i with
        | some (p2, b3) => some (dest2.set (i * dest_step) p2, b3)
        | none => none
      | _, _ => none
    | none => none

/-- Loop of `batch_add` phase one (lines 35-37): indices `0..len` in
increasing order, reading `dest[i]` and `src[i]`. -/
def phase1Run (dest src : List (G1Affine F)) :
    BatchAdder F → Nat → Nat → Option (BatchAdder F)
  | b, _, 0 => some b
  | b, i, k+1 =>
    match dest[i]?, src[i]? with
    | some p, some q =>
      match batch_add_phase_one b p q i with
      | some b2 => phase1Run dest src b2 (i+1) k
      | none => none
    | _, _ => none

/-- Loop of `batch_add` phase two (lines 39-41): indices in decreasing order
(the recursion processes the higher indices first), writing each result back
into `dest[i]`. -/
def phase2Run (src : List (G1Affine F)) :
    BatchAdder F → List (G1Affine F) → Nat → Nat →
    Option (List (G1Affine F) × BatchAdder F)
  | b, dest, _, 0 => some (dest, b)
  | b, dest, i, k+1 =>
    match phase2Run src b dest (i+1) k with
    | some (dest2, b2) =>
      match dest2[i]?, src[i]? with
      | some p, some q =>
        match batch_add_phase_two b2 p q i with
        | some (p2, b3) => some (dest2.set i p2, b3)
        | none => none
      | _, _ => none
    | none => none

/-- `BatchAdder::batch_add` (lines 29-42): assert equal lengths and capacity
(fatal, `none`, before anything is touched), then reset, phase one over
`0..len`, one shared inversion, phase two over `(0..len).rev()`. -/
def batch_add (b : BatchAdder F) (dest src : List (G1Affine F)) :
    Option (List (G1Affine F) × BatchAdder F) :=
  if dest.length = src.length then
    if dest.length ≤ b.inverses.length then
      match phase1Run dest src (reset b) 0 dest.length with
      | some b1 =>
        match inverse b1 with
        | some b2 => phase2Run src b2 dest 0 dest.length
        | none => none
      | none => none
    else none
  else none

/-- `BatchAdder::batch_add_step_n` (lines 46-65): the capacity asserts compute
`(len - 1) * step` with `usize` arithmetic, so `len = 0` underflows (fatal);
then the same two-phase pipeline runs over the strided positions. -/
def batch_add_step_n (b : BatchAdder F) (dest : List (G1Affine F))
    (dest_step : Nat) (src : List (G1Affine F)) (src_step len : Nat) :
    Option (List (G1Affine F) × BatchAdder F) :=
  match usizeSub len 1 with
  | none => none
  | some lm1 =>
    if lm1 * dest_step < dest.length then
      if lm1 * src_step < src.length then
        if len ≤ b.inverses.length then
          match phase1StepRun dest src dest_step src_step (reset b) 0 len with
          | some b1 =>
            match inverse b1 with
            | some b2 => phase2StepRun src dest_step src_step b2 dest 0 len
            | none => none
          | none => none
        else none
      else none
    else none

/-- Phase-decomposition sequence of the specification (testable property
"Phase decomposition equivalence"): `reset`, then `batch_add_phase_one` for
`i = 0 .. len-1` in increasing order, then `inverse()`, then
`batch_add_phase_two` for `i = len-1 .. 0` in decreasing order, on the same
buffers, without the up-front validity asserts of `batch_add`. -/
def phaseDecomposition (b : BatchAdder F) (dest src : List (G1Affine F)) :
    Option (List (G1Affine F) × BatchAdder F) :=
  match phase1Run dest src (reset b) 0 dest.length with
  | some b1 =>
    match inverse b1 with
    | some b2 => phase2Run src b2 dest 0 dest.length
    | none => none
  | none => none

end BatchAdder

/-- Reference affine chord-tangent addition, written from the group law the
source documents in its header (`src/batch_adder.rs`, lines 6-11):
`k = (Q.y-P.y)/(Q.x-P.x)` for `P ≠ ±Q`, the tangent slope `3*P.x^2/(2*P.y)`
for `P = Q` (the curve has `a = 0`), `R.x = k^2 - P.x - Q.x`,
`R.y = k*(P.x - R.x) - P.y`; identity operands absorb, and `P = -Q` yields
the identity. -/
def ecAdd : G1Affine F → G1Affine F → G1Affine F
  | .zero, q => q
  | p, .zero => p
  | .point px py, .point qx qy =>
    if qx = px then
      if qy = py then
        let k := (px * px + (px * px + px * px)) / (py + py)
        let rx := k * k - px - qx
        .point rx (k * (px - rx) - py)
      else .zero
    else
      let k := (qy - py) / (qx - px)
      let rx := k * k - px - qx
      .point rx (k * (px - rx) - py)

/-- Dedicated affine doubling formula (specification, "Doubling path"):
`k = 3*x^2/(2*y)`, `R.x = k^2 - 2*x`, `R.y = k*(x - R.x) - y`, with the
identity doubling to the identity. -/
def ecDouble : G1Affine F → G1Affine F
  | .zero => .zero
  | .point x y =>
    let k := (x * x + (x * x + x * x)) / (y + y)
    let rx := k * k - x - x
    .point rx (k * (x - rx) - y)

/-- Delta contributed by one pair in phase one: `none` when the pair is
skipped (an identity operand, or `P = -Q`), the x-difference `Q.x - P.x`
when it is nonzero, and the doubling substitution `2*Q.y` otherwise. -/
def contribDelta : G1Affine F → G1Affine F → Option F
  | .zero, _ => none
  | _, .zero => none
  | .point px py, .point qx qy =>
    if qx - px = 0 then
      if qy - py ≠ 0 then none else some (qy + qy)
    else some (qx - px)

/-- Phase-one factor contributed at batch position `n` of a strided run:
the delta of the pair `(dest[n*ds], src[n*ss])`, or `1` for a skipped pair
(or an out-of-range position, which the runs never produce). -/
def factorAt (dest src : List (G1Affine F)) (ds ss n : Nat) : F :=
  match dest[n * ds]?, src[n * ss]? with
  | some p, some q => (contribDelta p q).getD 1
  | _, _ => 1

/-- Product of the phase-one factors of `k` consecutive batch positions
starting at position `i`. -/
def prodDeltas (dest src : List (G1Affine F)) (ds ss : Nat) : Nat → Nat → F
  | _, 0 => 1
  | i, k+1 => factorAt dest src ds ss i * prodDeltas dest src ds ss (i+1) k

/-! ## Collision scheduler (`src/collision_state.rs`) -/

/-- One pool slot (`src/collision_state.rs`, lines 20-24): an opaque payload
and the index of the next slot in whatever list the slot is linked into.
Both fields are `u32` in the source; they are embedded as `Nat` with the
`u32` casts made explicit where they occur. -/
structure Entry where
  data : Nat
  next : Nat
deriving DecidableEq

/-- Index-based singly linked queue (`src/collision_state.rs`, lines 28-32). -/
structure Queue where
  head : Nat
  tail : Nat
deriving DecidableEq

/-- The collision scheduler state (`src/collision_state.rs`, lines 8-18). -/
structure CollisionState where
  entries : List Entry
  collision_count : Nat
  max_collision_count : Nat
  free : Queue
  processing : Queue
  unprocessed : Queue
deriving DecidableEq

namespace CollisionState

/-- The sentinel `NIL = u32::MAX` (line 35). -/
def NIL : Nat := 4294967295

/-- Size bound of the Rust `u32` type. -/
def U32 : Nat := 4294967296

/-- The fatal conditions the scheduler can hit, each corresponding to one
panic site (or overflow-checked arithmetic operation) in the source. -/
inductive CErr where
  | subUnderflow
  | addOverflow
  | emptyQueue
  | indexOOB
  | noFreeSlots
deriving DecidableEq

/-- Result of a scheduler operation: either a value together with the new
state, or a fatal error together with the state as it stands at the abort
point (which makes "what was already mutated when the panic fired"
observable in the embedding). -/
inductive CRes (α : Type) where
  | ok (a : α) (s : CollisionState)
  | fatal (e : CErr) (s : CollisionState)
deriving DecidableEq

/-- `CollisionState::new` (lines 37-66): a pool of `2 * max_collision_count`
entries pre-linked into one long free list (`next = i as u32 + 1`, the last
entry ending in `NIL`), empty `processing` and `unprocessed` queues.  The
loop bound `max_size - 1` and the tail `max_size as u32 - 1` use checked
subtraction, so `max_collision_count = 0` is fatal (`none`). -/
def new (max_collision_count : Nat) : Option CollisionState :=
  let max_size := max_collision_count * 2
  match usizeSub max_size 1 with
  | none => none
  | some m =>
    match usizeSub (max_size % U32) 1 with
    | none => none
    | some t =>
      some
        { entries := (List.range m).map (fun i => { data := 0, next := i % U32 + 1 })
            ++ [{ data := 0, next := NIL }]
          collision_count := 0
          max_collision_count := max_collision_count
          free := { head := 0, tail := t }
          processing := { head := NIL, tail := NIL }
          unprocessed := { head := NIL, tail := NIL } }

/-- `CollisionState::is_empty` (lines 68-70). -/
def is_empty (q : Queue) : Bool := q.head = NIL

/-- `CollisionState::clear` (lines 72-75). -/
def clearQ : Queue := { head := NIL, tail := NIL }

/-- `CollisionState::dequeue` (lines 77-89): fatal on an empty queue; pops
the head, clearing the queue if head and tail coincide and otherwise
following the head's `next` link (an out-of-range link is a fatal indexing
error in Rust, modelled as `indexOOB`). -/
def dequeue (q : Queue) (entries : List Entry) : Except CErr (Nat × Queue) :=
  if q.head = NIL then .error .emptyQueue
  else if q.head = q.tail then .ok (q.head, clearQ)
  else
    match entries[q.head]? with
    | none => .error .indexOOB
    | some e => .ok (q.head, { head := e.next, tail := q.tail })

/-- Overwrite the `next` link of slot `i` (fatal when `i` is out of range,
as the corresponding Rust slice write would be). -/
def setNextEntry (entries : List Entry) (i v : Nat) : Option (List Entry) :=
  match entries[i]? with
  | none => none
  | some e => some (entries.set i { e with next := v })

/-- `CollisionState::enqueue` (lines 91-100): append `entry_index` at the
tail (or make it the sole element of an empty queue) and terminate its
`next` link with `NIL`. -/
def enqueue (q : Queue) (entries : List Entry) (entry_index : Nat) :
    Except CErr (Queue × List Entry) :=
  if q.head = NIL then
    match setNextEntry entries entry_index NIL with
    | none => .error .indexOOB
    | some es => .ok ({ head := entry_index, tail := entry_index }, es)
  else
    match setNextEntry entries q.tail entry_index with
    | none => .error .indexOOB
    | some es1 =>
      match setNextEntry es1 entry_index NIL with
      | none => .error .indexOOB
      | some es2 => .ok ({ head := q.head, tail := entry_index }, es2)

/-- `CollisionState::get_entry_data` (lines 102-104). -/
def get_entry_data (s : CollisionState) (entry_index : Nat) : Option Nat :=
  (s.entries[entry_index]?).map Entry.data

/-- `CollisionState::dequeue_unprocessed` (lines 106-109): first decrement
`collision_count` (checked `usize` subtraction, so a zero counter underflows
fatally before the queue is even inspected), then pop `unprocessed`. -/
def dequeue_unprocessed (s : CollisionState) : CRes Nat :=
  match usizeSub s.collision_count 1 with
  | none => .fatal .subUnderflow s
  | some c =>
    match dequeue s.unprocessed s.entries with
    | .error e => .fatal e { s with collision_count := c }
    | .ok (i, q) => .ok i { s with collision_count := c, unprocessed := q }

/-- `CollisionState::mark_entry_processing` (lines 111-113). -/
def mark_entry_processing (s : CollisionState) (entry_index : Nat) : CRes Unit :=
  match enqueue s.processing s.entries entry_index with
  | .error e => .fatal e s
  | .ok (q, es) => .ok () { s with processing := q, entries := es }

/-- `CollisionState::mark_entry_unprocessed` (lines 115-118): increment
`collision_count` (checked `usize` addition) and append to `unprocessed`. -/
def mark_entry_unprocessed (s : CollisionState) (entry_index : Nat) : CRes Unit :=
  if s.collision_count + 1 < USIZE then
    let s1 : CollisionState := { s with collision_count := s.collision_count + 1 }
    match enqueue s1.unprocessed s1.entries entry_index with
    | .error e => .fatal e s1
    | .ok (q, es) => .ok () { s1 with unprocessed := q, entries := es }
  else .fatal .addOverflow s

/-- `CollisionState::add_unprocessed` (lines 120-128): fatal when `free` is
empty, otherwise take the head of `free`, store the payload in it and hand
it to `mark_entry_unprocessed`. -/
def add_unprocessed (s : CollisionState) (data : Nat) : CRes Nat :=
  if s.free.head = NIL then .fatal .noFreeSlots s
  else
    match dequeue s.free s.entries with
    | .error e => .fatal e s
    | .ok (index, fq) =>
      let s1 : CollisionState := { s with free := fq }
      match s1.entries[index]? with
      | none => .fatal .indexOOB s1
      | some e =>
        let s2 : CollisionState :=
          { s1 with entries := s1.entries.set index { e with data := data } }
        match mark_entry_unprocessed s2 index with
        | .ok () s3 => .ok index s3
        | .fatal er s3 => .fatal er s3

/-- `CollisionState::free_processing` (lines 130-142): a no-op when
`processing` is empty; otherwise splice the whole `processing` list onto the
tail of `free` in O(1) and clear `processing`. -/
def free_processing (s : CollisionState) : CRes Unit :=
  if s.processing.head = NIL then .ok () s
  else if s.free.head = NIL then
    .ok () { s with free := s.processing, processing := clearQ }
  else
    match setNextEntry s.entries s.free.tail s.processing.head with
    | none => .fatal .indexOOB s
    | some es =>
      .ok ()
        { s with entries := es,
                 free := { head := s.free.head, tail := s.processing.tail },
                 processing := clearQ }

/-- `CollisionState::needs_processing` (lines 144-147). -/
def needs_processing (s : CollisionState) : Bool :=
  !is_empty s.unprocessed || !is_empty s.processing

/-- `CollisionState::reaches_max_collision_count` (lines 149-151). -/
def reaches_max_collision_count (s : CollisionState) : Bool :=
  s.max_collision_count ≤ s.collision_count

/-- `CollisionState::get_unprocessed_tail` (lines 153-155). -/
def get_unprocessed_tail (s : CollisionState) : Nat :=
  s.unprocessed.tail

/-- One driver-visible transition, together with the caller-side book-keeping
of which pool indices are currently checked out (returned by
`dequeue_unprocessed` and not yet handed back through one of the two
`mark_entry_*` operations, which the claims restrict to previously dequeued
indices).  Only successful (non-fatal) operations step. -/
inductive Step : CollisionState × List Nat → CollisionState × List Nat → Prop where
  | add (s s' : CollisionState) (out : List Nat) (d i : Nat) :
      add_unprocessed s d = .ok i s' → Step (s, out) (s', out)
  | deq (s s' : CollisionState) (out : List Nat) (i : Nat) :
      dequeue_unprocessed s = .ok i s' → Step (s, out) (s', i :: out)
  | markp (s s' : CollisionState) (out : List Nat) (i : Nat) :
      i ∈ out → mark_entry_processing s i = .ok () s' →
      Step (s, out) (s', out.erase i)
  | marku (s s' : CollisionState) (out : List Nat) (i : Nat) :
      i ∈ out → mark_entry_unprocessed s i = .ok () s' →
      Step (s, out) (s', out.erase i)
  | freep (s s' : CollisionState) (out : List Nat) :
      free_processing s = .ok () s' → Step (s, out) (s', out)

/-- A scheduler state (with its list of checked-out indices) reachable from
`new max_collision_count` by any sequence of successful operations. -/
def Reachable (n : Nat) (p : CollisionState × List Nat) : Prop :=
  ∃ s0, new n = some s0 ∧ Relation.ReflTransGen Step (s0, []) p

/-- Walk a linked list from slot `h`, spending one unit of fuel per visited
slot, stopping at `NIL` (or on a dangling link). -/
def queueListAux (entries : List Entry) : Nat → Nat → List Nat
  | _, 0 => []
  | h, fuel+1 =>
    if h = NIL then []
    else
      h :: match entries[h]? with
        | none => []
        | some e => queueListAux entries e.next fuel

/-- The sequence of pool indices linked into queue `q`, read off the
`next` links starting at `q.head`. -/
def queueList (entries : List Entry) (q : Queue) : List Nat :=
  queueListAux entries q.head (entries.length + 1)

/-- Chain predicate: starting at slot `h`, following `next` links visits
exactly the slots in `l` in order and then reaches `t`. -/
def chainFromTo (entries : List Entry) : Nat → List Nat → Nat → Prop
  | h, [], t => h = t
  | h, x :: xs, t =>
    h = x ∧ ∃ e, entries[x]? = some e ∧ chainFromTo entries e.next xs t

/-- A queue `q` represents the abstract index list `l`: its head chains
through exactly `l` down to `NIL`, and its tail is the last element of `l`
(or `NIL` when `l` is empty). -/
def isQueueList (entries : List Entry) (q : Queue) (l : List Nat) : Prop :=
  chainFromTo entries q.head l NIL ∧ q.tail = l.getLast?.getD NIL

/-- Abstraction invariant tying a scheduler state (with the caller's list
`out` of checked-out indices) to three abstract index lists: each queue
represents its list, and the four groups together are a permutation of the
whole pool `0 .. 2*max_collision_count - 1`; `collision_count` is the
length of the `unprocessed` list. -/
def PoolInv (n : Nat) (s : CollisionState) (out : List Nat) : Prop :=
  ∃ lf lp lu,
    isQueueList s.entries s.free lf ∧
    isQueueList s.entries s.processing lp ∧
    isQueueList s.entries s.unprocessed lu ∧
    (lf ++ lp ++ lu ++ out).Perm (List.range (2 * n)) ∧
    s.collision_count = lu.length ∧
    s.entries.length = 2 * n ∧
    s.max_collision_count = n

/-- A state whose free list is empty (as after exhausting the pool). -/
def csEmptyFree : CollisionState :=
  { entries := []
    collision_count := 0
    max_collision_count := 0
    free := clearQ
    processing := clearQ
    unprocessed := clearQ }

/-- The state produced by `new 1`: a two-slot pool, both slots free. -/
def csInit1 : CollisionState :=
  { entries := [{ data := 0, next := 1 }, { data := 0, next := NIL }]
    collision_count := 0
    max_collision_count := 1
    free := { head := 0, tail := 1 }
    processing := clearQ
    unprocessed := clearQ }

/-- The state after `add_unprocessed 0` on `csInit1`. -/
def csAfterAdd : CollisionState :=
  match add_unprocessed csInit1 0 with
  | .ok _ s => s
  | .fatal _ s => s

/-- The state after `dequeue_unprocessed` on `csAfterAdd`: slot 0 has been
handed to the caller and is linked into no queue. -/
def csAfterDeq : CollisionState :=
  match dequeue_unprocessed csAfterAdd with
  | .ok _ s => s
  | .fatal _ s => s

end CollisionState

/-! ## Properties of the batch adder -/

section BatchAdderProofs

open BatchAdder

/-- A skipped pair (identity operand, or `P = -Q`) leaves phase one
untouched. -/
theorem phase_one_skip (b : BatchAdder F) (p q : G1Affine F) (idx : Nat)
    (hidx : idx < b.inverses.length) (hskip : contribDelta p q = none) :
    batch_add_phase_one b p q idx = some b := by
  cases p with
  | zero => simp [batch_add_phase_one, hidx]
  | point px py =>
    cases q with
    | zero => simp [batch_add_phase_one, hidx]
    | point qx qy =>
      simp only [contribDelta] at hskip
      simp only [batch_add_phase_one, if_pos hidx]
      by_cases h1 : qx - px = 0
      · by_cases h2 : qy - py = 0 <;> simp_all
      · simp_all

/-- A contributing pair with delta `d`, met while the running product is
nonzero, records the running product at its index and folds `d` into it. -/
theorem phase_one_contrib (b : BatchAdder F) (p q : G1Affine F) (idx : Nat) (d : F)
    (hidx : idx < b.inverses.length) (hb : b.inverse_state ≠ 0)
    (hd : contribDelta p q = some d) :
    batch_add_phase_one b p q idx =
      some { inverse_state := b.inverse_state * d,
             inverses := b.inverses.set idx b.inverse_state } := by
  cases p with
  | zero => simp [contribDelta] at hd
  | point px py =>
    cases q with
    | zero => simp [contribDelta] at hd
    | point qx qy =>
      by_cases h1 : qx - px = 0
      · by_cases h2 : qy - py = 0
        · have hdv : qy + qy = d := by simpa [contribDelta, h1, h2] using hd
          subst hdv
          simp [batch_add_phase_one, hidx, h1, h2, phase1Core, hb]
        · exfalso; simp [contribDelta, h1, h2] at hd
      · have hdv : qx - px = d := by simpa [contribDelta, h1] using hd
        subst hdv
        simp [batch_add_phase_one, hidx, h1, phase1Core, hb]

/-- A skipped pair is resolved directly by phase two, matching the
reference addition, and changes no adder state. -/
theorem phase_two_skip (b : BatchAdder F) (p q : G1Affine F) (idx : Nat)
    (hidx : idx < b.inverses.length) (hskip : contribDelta p q = none) :
    batch_add_phase_two b p q idx = some (ecAdd p q, b) := by
  cases p with
  | zero => cases q <;> simp [batch_add_phase_two, hidx, ecAdd]
  | point px py =>
    cases q with
    | zero => simp [batch_add_phase_two, hidx, ecAdd]
    | point qx qy =>
      simp only [contribDelta] at hskip
      by_cases h1 : qx - px = 0
      · by_cases h2 : qy - py = 0
        · simp_all
        · have hx : qx = px := sub_eq_zero.mp h1
          have hy : qy ≠ py := fun h => h2 (by rw [h, sub_self])
          simp [batch_add_phase_two, hidx, ecAdd, h1, h2, hx, hy]
      · simp_all

/-- A contributing pair with delta `d` whose recovered per-element inverse
is exactly `d⁻¹` is resolved by phase two to the reference chord-tangent
sum, and the delta is folded back into the running state. -/
theorem phase_two_contrib (b : BatchAdder F) (p q : G1Affine F) (idx : Nat) (d : F)
    (hidx : idx < b.inverses.length) (hd : contribDelta p q = some d) (hd0 : d ≠ 0)
    (hinv : b.inverses[idx] * b.inverse_state = d⁻¹) :
    batch_add_phase_two b p q idx =
      some (ecAdd p q, { b with inverse_state := b.inverse_state * d }) := by
  cases p with
  | zero => simp [contribDelta] at hd
  | point px py =>
    cases q with
    | zero => simp [contribDelta] at hd
    | point qx qy =>
      by_cases h1 : qx - px = 0
      · by_cases h2 : qy - py = 0
        · have hx : qx = px := sub_eq_zero.mp h1
          have hy : qy = py := sub_eq_zero.mp h2
          subst hx; subst hy
          have hdv : qy + qy = d := by simpa [contribDelta] using hd
          subst hdv
          rw [show batch_add_phase_two b (G1Affine.point qx qy) (G1Affine.point qx qy) idx
              = some (phase2Tail b (b.inverses[idx] * b.inverse_state) (qy + qy)
                  (qx * qx + (qx * qx + qx * qx)) qx qx qy) from by
            simp [batch_add_phase_two, hidx], hinv]
          simp only [phase2Tail, ecAdd, ↓reduceIte, Option.some.injEq, Prod.mk.injEq,
            G1Affine.point.injEq]
          refine ⟨⟨?_, ?_⟩, by trivial⟩
          · simp only [div_eq_mul_inv]; try ring_nf
          · simp only [div_eq_mul_inv]; try ring_nf
        · exfalso; simp [contribDelta, h1, h2] at hd
      · have hx : ¬ qx = px := fun h => h1 (by rw [h, sub_self])
        have hdv : qx - px = d := by simpa [contribDelta, h1] using hd
        subst hdv
        rw [show batch_add_phase_two b (G1Affine.point px py) (G1Affine.point qx qy) idx
            = some (phase2Tail b (b.inverses[idx] * b.inverse_state) (qx - px)
                (qy - py) px qx qy) from by
          simp [batch_add_phase_two, hidx, h1], hinv]
        simp only [phase2Tail, ecAdd, if_neg hx, Option.some.injEq, Prod.mk.injEq,
          G1Affine.point.injEq]
        have hc : (qy - py) * (qx - px)⁻¹ * (qx - px) = qy - py := by
          rw [← div_eq_mul_inv]; exact div_mul_cancel₀ _ h1
        refine ⟨⟨?_, ?_⟩, by trivial⟩
        · simp only [div_eq_mul_inv]; ring
        · simp only [div_eq_mul_inv]; linear_combination hc

/-- Unfolding rule for the product of factors, removing the last factor. -/
theorem prodDeltas_succ_right (dest src : List (G1Affine F)) (ds ss : Nat) :
    ∀ k i, prodDeltas dest src ds ss i (k+1)
      = prodDeltas dest src ds ss i k * factorAt dest src ds ss (i+k) := by
  intro k
  induction k with
  | zero => intro i; simp [prodDeltas]
  | succ k ih =>
    intro i
    rw [show prodDeltas dest src ds ss i (k+1+1)
        = factorAt dest src ds ss i * prodDeltas dest src ds ss (i+1) (k+1) from rfl,
      ih (i+1),
      show prodDeltas dest src ds ss i (k+1)
        = factorAt dest src ds ss i * prodDeltas dest src ds ss (i+1) k from rfl,
      show i + 1 + k = i + (k + 1) from by omega, mul_assoc]

/-- The factor of a position whose pair is within bounds and safe is
nonzero. -/
theorem factorAt_ne_zero (dest src : List (G1Affine F)) (ds ss n : Nat)
    (hsafe : ∀ p q, dest[n * ds]? = some p → src[n * ss]? = some q →
      contribDelta p q ≠ some 0) :
    factorAt dest src ds ss n ≠ 0 := by
  cases hp : dest[n * ds]? with
  | none => simp [factorAt, hp]
  | some p =>
    cases hq : src[n * ss]? with
    | none => simp [factorAt, hp, hq]
    | some q =>
      have hval : factorAt dest src ds ss n = (contribDelta p q).getD 1 := by
        simp [factorAt, hp, hq]
      rw [hval]
      cases hc : contribDelta p q with
      | none => simp [hc]
      | some d =>
        have hne := hsafe p q hp hq
        rw [hc] at hne
        simp only [Option.getD_some]
        intro h
        exact hne (by rw [h])

/-- The product of the factors of a safe range is nonzero. -/
theorem prodDeltas_ne_zero (dest src : List (G1Affine F)) (ds ss : Nat) :
    ∀ k i, (∀ j, j < k → ∀ p q, dest[(i+j) * ds]? = some p →
        src[(i+j) * ss]? = some q → contribDelta p q ≠ some 0) →
      prodDeltas dest src ds ss i k ≠ 0 := by
  intro k
  induction k with
  | zero => intro i _; simp [prodDeltas]
  | succ k ih =>
    intro i hsafe
    rw [show prodDeltas dest src ds ss i (k+1)
      = factorAt dest src ds ss i * prodDeltas dest src ds ss (i+1) k from rfl]
    refine mul_ne_zero (factorAt_ne_zero dest src ds ss i ?_) (ih (i+1) ?_)
    · intro p q hp hq
      exact hsafe 0 (Nat.succ_pos k) p q (by simpa using hp) (by simpa using hq)
    · intro j hj p q hp hq
      have e : i + 1 + j = i + (j + 1) := by omega
      exact hsafe (j+1) (by omega) p q (e ▸ hp) (e ▸ hq)

/-- Invariant of the phase-one loop: starting from a nonzero running
product, the loop succeeds, multiplies the running product by all factors
of the range, and records at every contributing position the product of
the factors strictly before it. -/
theorem phase1StepRun_spec (dest src : List (G1Affine F)) (ds ss : Nat) (k : Nat) :
    ∀ (i : Nat) (b : BatchAdder F),
      b.inverse_state ≠ 0 →
      i + k ≤ b.inverses.length →
      (∀ j, j < k → (i+j) * ds < dest.length) →
      (∀ j, j < k → (i+j) * ss < src.length) →
      (∀ j, j < k → ∀ p q, dest[(i+j) * ds]? = some p →
        src[(i+j) * ss]? = some q → contribDelta p q ≠ some 0) →
      ∃ b2, BatchAdder.phase1StepRun dest src ds ss b i k = some b2 ∧
        b2.inverses.length = b.inverses.length ∧
        b2.inverse_state = b.inverse_state * prodDeltas dest src ds ss i k ∧
        (∀ j, j < i → b2.inverses[j]? = b.inverses[j]?) ∧
        (∀ j, j < k → ∀ p q, dest[(i+j) * ds]? = some p →
          src[(i+j) * ss]? = some q → contribDelta p q ≠ none →
          b2.inverses[i+j]? = some (b.inverse_state * prodDeltas dest src ds ss i j)) := by
  induction k with
  | zero =>
    intro i b hb hcap hbd hbs hsafe
    exact ⟨b, rfl, rfl, by simp [prodDeltas], fun j hj => rfl,
      fun j hj => (Nat.not_lt_zero j hj).elim⟩
  | succ k ih =>
    intro i b hb hcap hbd hbs hsafe
    have hpd : (i+0) * ds < dest.length := hbd 0 (Nat.succ_pos k)
    have hps : (i+0) * ss < src.length := hbs 0 (Nat.succ_pos k)
    rw [Nat.add_zero] at hpd hps
    obtain ⟨p, hp⟩ : ∃ p, dest[i * ds]? = some p := ⟨_, List.getElem?_eq_getElem hpd⟩
    obtain ⟨q, hq⟩ : ∃ q, src[i * ss]? = some q := ⟨_, List.getElem?_eq_getElem hps⟩
    have hsafe0 : contribDelta p q ≠ some 0 :=
      hsafe 0 (Nat.succ_pos k) p q (by simpa using hp) (by simpa using hq)
    have hidx : i < b.inverses.length := by omega
    have hsafe' : ∀ j, j < k → ∀ p2 q2, dest[(i+1+j) * ds]? = some p2 →
        src[(i+1+j) * ss]? = some q2 → contribDelta p2 q2 ≠ some 0 := by
      intro j hj p2 q2 hp2 hq2
      have e : i + 1 + j = i + (j + 1) := by omega
      exact hsafe (j+1) (by omega) p2 q2 (e ▸ hp2) (e ▸ hq2)
    have hbd' : ∀ j, j < k → (i+1+j) * ds < dest.length := by
      intro j hj
      have e : i + 1 + j = i + (j + 1) := by omega
      rw [e]; exact hbd (j+1) (by omega)
    have hbs' : ∀ j, j < k → (i+1+j) * ss < src.length := by
      intro j hj
      have e : i + 1 + j = i + (j + 1) := by omega
      rw [e]; exact hbs (j+1) (by omega)
    cases hc : contribDelta p q with
    | none =>
      have hfac : factorAt dest src ds ss i = 1 := by simp [factorAt, hp, hq, hc]
      have hstep := phase_one_skip b p q i hidx hc
      simp only [BatchAdder.phase1StepRun, hp, hq, hstep]
      obtain ⟨b2, hrun, hlen, hstate, hprior, hvals⟩ :=
        ih (i+1) b hb (by omega) hbd' hbs' hsafe'
      refine ⟨b2, hrun, hlen, ?_, fun j hj => hprior j (by omega), ?_⟩
      · rw [hstate, show prodDeltas dest src ds ss i (k+1)
          = factorAt dest src ds ss i * prodDeltas dest src ds ss (i+1) k from rfl,
          hfac, one_mul]
      · intro j hj p2 q2 hp2 hq2 hcon
        match j with
        | 0 =>
          rw [Nat.add_zero] at hp2 hq2
          rw [hp] at hp2
          rw [hq] at hq2
          cases hp2; cases hq2
          exact absurd hc hcon
        | j'+1 =>
          have e : i + (j'+1) = i + 1 + j' := by omega
          rw [e] at hp2 hq2 ⊢
          rw [hvals j' (by omega) p2 q2 hp2 hq2 hcon,
            show prodDeltas dest src ds ss i (j'+1)
              = factorAt dest src ds ss i * prodDeltas dest src ds ss (i+1) j' from rfl,
            hfac, one_mul]
    | some d =>
      have hd0 : d ≠ 0 := fun h => hsafe0 (h ▸ hc)
      have hfac : factorAt dest src ds ss i = d := by simp [factorAt, hp, hq, hc]
      have hstep := phase_one_contrib b p q i d hidx hb hc
      simp only [BatchAdder.phase1StepRun, hp, hq, hstep]
      obtain ⟨b2, hrun, hlen, hstate, hprior, hvals⟩ :=
        ih (i+1) ⟨b.inverse_state * d, b.inverses.set i b.inverse_state⟩
          (mul_ne_zero hb hd0) (by simpa using by omega) hbd' hbs' hsafe'
      refine ⟨b2, hrun, by simpa using hlen, ?_, ?_, ?_⟩
      · rw [hstate, show prodDeltas dest src ds ss i (k+1)
          = factorAt dest src ds ss i * prodDeltas dest src ds ss (i+1) k from rfl,
          hfac]
        ring
      · intro j hj
        rw [hprior j (by omega)]
        exact List.getElem?_set_ne (by omega)
      · intro j hj p2 q2 hp2 hq2 hcon
        match j with
        | 0 =>
          rw [Nat.add_zero]
          rw [hprior i (by omega)]
          rw [show prodDeltas dest src ds ss i 0 = 1 from rfl, mul_one]
          simpa using List.getElem?_set_self (l := b.inverses) (a := b.inverse_state) hidx
        | j'+1 =>
          have e : i + (j'+1) = i + 1 + j' := by omega
          rw [e] at hp2 hq2 ⊢
          rw [hvals j' (by omega) p2 q2 hp2 hq2 hcon,
            show prodDeltas dest src ds ss i (j'+1)
              = factorAt dest src ds ss i * prodDeltas dest src ds ss (i+1) j' from rfl,
            hfac]
          simp [mul_assoc]

/-- Invariant of the phase-two loop.  Entering with the running state equal
to the inverse of `Ppre` times the product of the factors of the remaining
range, and with the scratch buffer holding `Ppre` times the product of the
factors strictly before each contributing position, the loop succeeds,
writes the reference sum at every strided position, leaves every other
position untouched, and exits with the running state `Ppre⁻¹`. -/
theorem phase2StepRun_spec (src : List (G1Affine F)) (ds ss : Nat) (hds : 0 < ds)
    (k : Nat) :
    ∀ (i : Nat) (b : BatchAdder F) (dest : List (G1Affine F)) (Ppre : F),
      Ppre ≠ 0 →
      i + k ≤ b.inverses.length →
      (∀ j, j < k → (i+j) * ds < dest.length) →
      (∀ j, j < k → (i+j) * ss < src.length) →
      (∀ j, j < k → ∀ p q, dest[(i+j) * ds]? = some p →
        src[(i+j) * ss]? = some q → contribDelta p q ≠ some 0) →
      b.inverse_state = (Ppre * prodDeltas dest src ds ss i k)⁻¹ →
      (∀ j, j < k → ∀ p q, dest[(i+j) * ds]? = some p →
        src[(i+j) * ss]? = some q → contribDelta p q ≠ none →
        b.inverses[i+j]? = some (Ppre * prodDeltas dest src ds ss i j)) →
      ∃ dest2 b2, BatchAdder.phase2StepRun src ds ss b dest i k = some (dest2, b2) ∧
        dest2.length = dest.length ∧
        b2.inverses = b.inverses ∧
        b2.inverse_state = Ppre⁻¹ ∧
        (∀ m, (∀ j, j < k → m ≠ (i+j) * ds) → dest2[m]? = dest[m]?) ∧
        (∀ j, j < k → ∀ p q, dest[(i+j) * ds]? = some p →
          src[(i+j) * ss]? = some q → dest2[(i+j) * ds]? = some (ecAdd p q)) := by
  induction k with
  | zero =>
    intro i b dest Ppre hP hcap hbd hbs hsafe hstate hinvs
    refine ⟨dest, b, rfl, rfl, rfl, ?_, fun m _ => rfl,
      fun j hj => (Nat.not_lt_zero j hj).elim⟩
    rw [hstate]; simp [prodDeltas]
  | succ k ih =>
    intro i b dest Ppre hP hcap hbd hbs hsafe hstate hinvs
    have hpd : i * ds < dest.length := by have := hbd 0 (Nat.succ_pos k); simpa using this
    have hps : i * ss < src.length := by have := hbs 0 (Nat.succ_pos k); simpa using this
    obtain ⟨p, hp⟩ : ∃ p, dest[i * ds]? = some p := ⟨_, List.getElem?_eq_getElem hpd⟩
    obtain ⟨q, hq⟩ : ∃ q, src[i * ss]? = some q := ⟨_, List.getElem?_eq_getElem hps⟩
    have hsafe0 : contribDelta p q ≠ some 0 :=
      hsafe 0 (Nat.succ_pos k) p q (by simpa using hp) (by simpa using hq)
    have hbd' : ∀ j, j < k → (i+1+j) * ds < dest.length := by
      intro j hj; have e : i + 1 + j = i + (j + 1) := by omega
      rw [e]; exact hbd (j+1) (by omega)
    have hbs' : ∀ j, j < k → (i+1+j) * ss < src.length := by
      intro j hj; have e : i + 1 + j = i + (j + 1) := by omega
      rw [e]; exact hbs (j+1) (by omega)
    have hsafe' : ∀ j, j < k → ∀ p2 q2, dest[(i+1+j) * ds]? = some p2 →
        src[(i+1+j) * ss]? = some q2 → contribDelta p2 q2 ≠ some 0 := by
      intro j hj p2 q2 hp2 hq2
      have e : i + 1 + j = i + (j + 1) := by omega
      exact hsafe (j+1) (by omega) p2 q2 (e ▸ hp2) (e ▸ hq2)
    have hlt : ∀ j : Nat, i * ds < (i+1+j) * ds :=
      fun j => (Nat.mul_lt_mul_right hds).mpr (by omega)
    cases hc : contribDelta p q with
    | none =>
      have hfac : factorAt dest src ds ss i = 1 := by simp [factorAt, hp, hq, hc]
      have hstate' : b.inverse_state = (Ppre * prodDeltas dest src ds ss (i+1) k)⁻¹ := by
        rw [hstate, show prodDeltas dest src ds ss i (k+1)
          = factorAt dest src ds ss i * prodDeltas dest src ds ss (i+1) k from rfl,
          hfac, one_mul]
      have hinvs' : ∀ j, j < k → ∀ p2 q2, dest[(i+1+j) * ds]? = some p2 →
          src[(i+1+j) * ss]? = some q2 → contribDelta p2 q2 ≠ none →
          b.inverses[i+1+j]? = some (Ppre * prodDeltas dest src ds ss (i+1) j) := by
        intro j hj p2 q2 hp2 hq2 hcon
        have e : i + 1 + j = i + (j + 1) := by omega
        rw [e, hinvs (j+1) (by omega) p2 q2 (e ▸ hp2) (e ▸ hq2) hcon,
          show prodDeltas dest src ds ss i (j+1)
            = factorAt dest src ds ss i * prodDeltas dest src ds ss (i+1) j from rfl,
          hfac, one_mul]
      obtain ⟨dest2, b2, hrun, hlen, hb2i, hb2s, hframe, hvals⟩ :=
        ih (i+1) b dest Ppre hP (by omega) hbd' hbs' hsafe' hstate' hinvs'
      have hread : dest2[i * ds]? = some p := by
        rw [hframe (i * ds) fun j hj => Nat.ne_of_lt (hlt j), hp]
      have hstep := phase_two_skip b2 p q i (by rw [hb2i]; omega) hc
      simp only [BatchAdder.phase2StepRun, hrun, hread, hq, hstep]
      refine ⟨dest2.set (i * ds) (ecAdd p q), b2, rfl, by simp [hlen], hb2i, hb2s, ?_, ?_⟩
      · intro m hm
        have hm0 : i * ds ≠ m := by
          have := hm 0 (Nat.succ_pos k)
          rw [Nat.add_zero] at this
          exact fun h => this h.symm
        rw [List.getElem?_set_ne hm0]
        refine hframe m ?_
        intro j hj
        have e : i + 1 + j = i + (j + 1) := by omega
        rw [e]; exact hm (j+1) (by omega)
      · intro j hj p2 q2 hp2 hq2
        match j with
        | 0 =>
          rw [Nat.add_zero] at hp2 hq2 ⊢
          rw [hp] at hp2; rw [hq] at hq2
          cases hp2; cases hq2
          have hbound : i * ds < dest2.length := by rw [hlen]; exact hpd
          simp [List.getElem?_set_self, hbound]
        | j'+1 =>
          have e : i + (j'+1) = i + 1 + j' := by omega
          rw [e] at hp2 hq2 ⊢
          rw [List.getElem?_set_ne (Nat.ne_of_lt (hlt j'))]
          exact hvals j' (by omega) p2 q2 hp2 hq2
    | some d =>
      have hd0 : d ≠ 0 := fun h => hsafe0 (h ▸ hc)
      have hfac : factorAt dest src ds ss i = d := by simp [factorAt, hp, hq, hc]
      have hP' : Ppre * d ≠ 0 := mul_ne_zero hP hd0
      have hstate' : b.inverse_state
          = ((Ppre * d) * prodDeltas dest src ds ss (i+1) k)⁻¹ := by
        rw [hstate, show prodDeltas dest src ds ss i (k+1)
          = factorAt dest src ds ss i * prodDeltas dest src ds ss (i+1) k from rfl,
          hfac, mul_assoc]
      have hinvs' : ∀ j, j < k → ∀ p2 q2, dest[(i+1+j) * ds]? = some p2 →
          src[(i+1+j) * ss]? = some q2 → contribDelta p2 q2 ≠ none →
          b.inverses[i+1+j]? = some ((Ppre * d) * prodDeltas dest src ds ss (i+1) j) := by
        intro j hj p2 q2 hp2 hq2 hcon
        have e : i + 1 + j = i + (j + 1) := by omega
        rw [e, hinvs (j+1) (by omega) p2 q2 (e ▸ hp2) (e ▸ hq2) hcon,
          show prodDeltas dest src ds ss i (j+1)
            = factorAt dest src ds ss i * prodDeltas dest src ds ss (i+1) j from rfl,
          hfac, mul_assoc]
      obtain ⟨dest2, b2, hrun, hlen, hb2i, hb2s, hframe, hvals⟩ :=
        ih (i+1) b dest (Ppre * d) hP' (by omega) hbd' hbs' hsafe' hstate' hinvs'
      have hread : dest2[i * ds]? = some p := by
        rw [hframe (i * ds) fun j hj => Nat.ne_of_lt (hlt j), hp]
      have hiv : b.inverses[i+0]? = some (Ppre * prodDeltas dest src ds ss i 0) :=
        hinvs 0 (Nat.succ_pos k) p q (by simpa using hp) (by simpa using hq)
          (by rw [hc]; exact fun h => Option.noConfusion h)
      rw [Nat.add_zero, show prodDeltas dest src ds ss i 0 = 1 from rfl, mul_one] at hiv
      have hidx2 : i < b2.inverses.length := by rw [hb2i]; omega
      have hval : b2.inverses[i] = Ppre := by
        have h1 : b2.inverses[i]? = some Ppre := by rw [hb2i]; exact hiv
        have h2 : b2.inverses[i]? = some (b2.inverses[i]) :=
          List.getElem?_eq_getElem hidx2
        rw [h1] at h2
        exact (Option.some.inj h2).symm
      have hinvd : b2.inverses[i] * b2.inverse_state = d⁻¹ := by
        rw [hval, hb2s, mul_inv, ← mul_assoc, mul_inv_cancel₀ hP, one_mul]
      have hstep := phase_two_contrib b2 p q i d hidx2 hc hd0 hinvd
      simp only [BatchAdder.phase2StepRun, hrun, hread, hq, hstep]
      refine ⟨dest2.set (i * ds) (ecAdd p q), _, rfl, by simp [hlen], by simp [hb2i], ?_, ?_, ?_⟩
      · show b2.inverse_state * d = Ppre⁻¹
        rw [hb2s, mul_inv, mul_assoc, inv_mul_cancel₀ hd0, mul_one]
      · intro m hm
        have hm0 : i * ds ≠ m := by
          have := hm 0 (Nat.succ_pos k)
          rw [Nat.add_zero] at this
          exact fun h => this h.symm
        rw [List.getElem?_set_ne hm0]
        refine hframe m ?_
        intro j hj
        have e : i + 1 + j = i + (j + 1) := by omega
        rw [e]; exact hm (j+1) (by omega)
      · intro j hj p2 q2 hp2 hq2
        match j with
        | 0 =>
          rw [Nat.add_zero] at hp2 hq2 ⊢
          rw [hp] at hp2; rw [hq] at hq2
          cases hp2; cases hq2
          have hbound : i * ds < dest2.length := by rw [hlen]; exact hpd
          simp [List.getElem?_set_self, hbound]
        | j'+1 =>
          have e : i + (j'+1) = i + 1 + j' := by omega
          rw [e] at hp2 hq2 ⊢
          rw [List.getElem?_set_ne (Nat.ne_of_lt (hlt j'))]
          exact hvals j' (by omega) p2 q2 hp2 hq2

/-- The `batch_add` phase-one loop is the strided loop at stride one. -/
theorem phase1Run_eq_step (dest src : List (G1Affine F)) (k : Nat) :
    ∀ (i : Nat) (b : BatchAdder F),
      BatchAdder.phase1Run dest src b i k
        = BatchAdder.phase1StepRun dest src 1 1 b i k := by
  induction k with
  | zero => intro i b; rfl
  | succ k ih =>
    intro i b
    simp only [BatchAdder.phase1Run, BatchAdder.phase1StepRun, Nat.mul_one]
    cases hd : dest[i]? with
    | none => rfl
    | some p =>
      cases hs : src[i]? with
      | none => rfl
      | some q =>
        cases hb1 : BatchAdder.batch_add_phase_one b p q i with
        | none => simp only [hb1]
        | some b2 => simp only [hb1]; exact ih (i+1) b2

/-- The `batch_add` phase-two loop is the strided loop at stride one. -/
theorem phase2Run_eq_step (src : List (G1Affine F)) (k : Nat) :
    ∀ (i : Nat) (b : BatchAdder F) (dest : List (G1Affine F)),
      BatchAdder.phase2Run src b dest i k
        = BatchAdder.phase2StepRun src 1 1 b dest i k := by
  induction k with
  | zero => intro i b dest; rfl
  | succ k ih =>
    intro i b dest
    simp only [BatchAdder.phase2Run, BatchAdder.phase2StepRun, Nat.mul_one, ih (i+1) b dest]

/-- Master correctness statement for `batch_add`: on valid inputs whose
contributing deltas are all nonzero, it returns exactly the pointwise
reference sums. -/
theorem batch_add_spec (b : BatchAdder F) (dest src : List (G1Affine F))
    (hlen : dest.length = src.length) (hcap : dest.length ≤ b.inverses.length)
    (hsafe : ∀ j, j < dest.length → ∀ p q, dest[j]? = some p → src[j]? = some q →
      contribDelta p q ≠ some 0) :
    ∃ b2, BatchAdder.batch_add b dest src = some (List.zipWith ecAdd dest src, b2) := by
  have hsafe1 : ∀ j, j < dest.length → ∀ p q, dest[(0+j) * 1]? = some p →
      src[(0+j) * 1]? = some q → contribDelta p q ≠ some 0 := by
    intro j hj p q hp hq
    exact hsafe j hj p q (by simpa using hp) (by simpa using hq)
  have hbd1 : ∀ j, j < dest.length → (0+j) * 1 < dest.length := by
    intro j hj; simpa using hj
  have hbs1 : ∀ j, j < dest.length → (0+j) * 1 < src.length := by
    intro j hj; simp; omega
  obtain ⟨b1, hrun1, hlen1, hstate1, _, hvals1⟩ :=
    phase1StepRun_spec dest src 1 1 dest.length 0 (BatchAdder.reset b)
      one_ne_zero (by simpa [BatchAdder.reset] using hcap) hbd1 hbs1 hsafe1
  have hprod_ne : prodDeltas dest src 1 1 0 dest.length ≠ 0 :=
    prodDeltas_ne_zero dest src 1 1 dest.length 0 hsafe1
  have hstate1' : b1.inverse_state = prodDeltas dest src 1 1 0 dest.length := by
    rw [hstate1]; simp [BatchAdder.reset]
  have hinv : BatchAdder.inverse b1
      = some { b1 with inverse_state := b1.inverse_state⁻¹ } := by
    rw [BatchAdder.inverse, if_neg (by rw [hstate1']; exact hprod_ne)]
  obtain ⟨dest2, b2, hrun2, hlen2, _, _, hframe2, hvals2⟩ :=
    phase2StepRun_spec src 1 1 Nat.one_pos dest.length 0
      { b1 with inverse_state := b1.inverse_state⁻¹ } dest 1 one_ne_zero
      (by simpa [BatchAdder.reset, hlen1] using hcap)
      hbd1 hbs1 hsafe1
      (by simp [hstate1', one_mul])
      (by
        intro j hj p q hp hq hcon
        have := hvals1 j hj p q hp hq hcon
        simpa [BatchAdder.reset] using this)
  have hdest2 : dest2 = List.zipWith ecAdd dest src := by
    refine List.ext_getElem? ?_
    intro n
    by_cases hn : n < dest.length
    · have hp : dest[n]? = some dest[n] := List.getElem?_eq_getElem hn
      have hq : src[n]? = some src[n] := List.getElem?_eq_getElem (by omega)
      have := hvals2 n hn dest[n] src[n] (by simp only [Nat.zero_add, Nat.mul_one]; exact hp)
        (by simp only [Nat.zero_add, Nat.mul_one]; exact hq)
      rw [show (0+n) * 1 = n from by omega] at this
      rw [this, List.getElem?_zipWith']
      rw [hp, hq]
      rfl
    · have h1 : dest2[n]? = none := by
        rw [List.getElem?_eq_none]
        rw [hlen2]; omega
      have h2 : (List.zipWith ecAdd dest src)[n]? = none := by
        rw [List.getElem?_eq_none]
        rw [List.length_zipWith]
        omega
      rw [h1, h2]
  refine ⟨b2, ?_⟩
  rw [BatchAdder.batch_add, if_pos hlen, if_pos hcap]
  simp only [phase1Run_eq_step dest src dest.length, hrun1, hinv,
    phase2Run_eq_step src dest.length, hrun2, hdest2]

/-- Master correctness statement for `batch_add_step_n`: on valid strided
inputs whose contributing deltas are all nonzero, it succeeds, writes the
reference sum at each strided destination position and leaves every other
position untouched. -/
theorem batch_add_step_n_spec (b : BatchAdder F) (dest src : List (G1Affine F))
    (ds ss len : Nat) (hds : 0 < ds) (hlen : 0 < len)
    (hbd : (len - 1) * ds < dest.length) (hbs : (len - 1) * ss < src.length)
    (hcap : len ≤ b.inverses.length)
    (hsafe : ∀ j, j < len → ∀ p q, dest[j * ds]? = some p → src[j * ss]? = some q →
      contribDelta p q ≠ some 0) :
    ∃ dest2 b2, BatchAdder.batch_add_step_n b dest ds src ss len = some (dest2, b2) ∧
      dest2.length = dest.length ∧
      (∀ j, j < len → ∀ p q, dest[j * ds]? = some p → src[j * ss]? = some q →
        dest2[j * ds]? = some (ecAdd p q)) ∧
      (∀ m, (∀ j, j < len → m ≠ j * ds) → dest2[m]? = dest[m]?) := by
  have hbd0 : ∀ j, j < len → (0+j) * ds < dest.length := by
    intro j hj
    calc (0+j) * ds ≤ (len - 1) * ds := by
          refine Nat.mul_le_mul_right ds ?_; omega
      _ < dest.length := hbd
  have hbs0 : ∀ j, j < len → (0+j) * ss < src.length := by
    intro j hj
    calc (0+j) * ss ≤ (len - 1) * ss := by
          refine Nat.mul_le_mul_right ss ?_; omega
      _ < src.length := hbs
  have hsafe0 : ∀ j, j < len → ∀ p q, dest[(0+j) * ds]? = some p →
      src[(0+j) * ss]? = some q → contribDelta p q ≠ some 0 := by
    intro j hj p q hp hq
    exact hsafe j hj p q (by simpa using hp) (by simpa using hq)
  obtain ⟨b1, hrun1, hlen1, hstate1, _, hvals1⟩ :=
    phase1StepRun_spec dest src ds ss len 0 (BatchAdder.reset b)
      one_ne_zero (by simpa [BatchAdder.reset] using hcap) hbd0 hbs0 hsafe0
  have hprod_ne : prodDeltas dest src ds ss 0 len ≠ 0 :=
    prodDeltas_ne_zero dest src ds ss len 0 hsafe0
  have hstate1' : b1.inverse_state = prodDeltas dest src ds ss 0 len := by
    rw [hstate1]; simp [BatchAdder.reset]
  have hinv : BatchAdder.inverse b1
      = some { b1 with inverse_state := b1.inverse_state⁻¹ } := by
    rw [BatchAdder.inverse, if_neg (by rw [hstate1']; exact hprod_ne)]
  obtain ⟨dest2, b2, hrun2, hlen2, _, _, hframe2, hvals2⟩ :=
    phase2StepRun_spec src ds ss hds len 0
      { b1 with inverse_state := b1.inverse_state⁻¹ } dest 1 one_ne_zero
      (by simpa [BatchAdder.reset, hlen1] using hcap)
      hbd0 hbs0 hsafe0
      (by simp [hstate1', one_mul])
      (by
        intro j hj p q hp hq hcon
        have := hvals1 j hj p q hp hq hcon
        simpa [BatchAdder.reset] using this)
  refine ⟨dest2, b2, ?_, hlen2, ?_, ?_⟩
  · have husub : usizeSub len 1 = some (len - 1) := by
      rw [usizeSub, if_pos (by omega)]
    simp only [BatchAdder.batch_add_step_n, husub, hbd, hbs, hcap, if_true, hrun1,
      hinv, hrun2]
  · intro j hj p q hp hq
    have := hvals2 j hj p q (by simpa using hp) (by simpa using hq)
    simpa using this
  · intro m hm
    refine hframe2 m ?_
    intro j hj
    simpa using hm j hj

/-- Claim C1: for every `BatchAdder` constructed with `max_batch_cnt > 0`
and every pair of equal-length point sequences with length at most
`max_batch_cnt` (whose contributing deltas are nonzero — on the
repository's odd-order curve this holds for every sequence of curve
points, since a doubling pair there always has `2*Q.y ≠ 0`), `batch_add`
overwrites each `dest[i]` with the elliptic-curve group sum of the
original `dest[i]` and `src[i]`, identity operands included. -/
theorem c1_batch_add_correct (m : Nat) (_hm : 0 < m) (dest src : List (G1Affine F))
    (hlen : dest.length = src.length) (hcap : dest.length ≤ m)
    (hsafe : ∀ j, j < dest.length →
      contribDelta (dest.getD j .zero) (src.getD j .zero) ≠ some 0) :
    ∃ b2, BatchAdder.batch_add (BatchAdder.new m) dest src
      = some (List.zipWith ecAdd dest src, b2) := by
  refine batch_add_spec _ _ _ hlen (by simpa [BatchAdder.new] using hcap) ?_
  intro j hj p q hp hq
  have hp' : dest.getD j .zero = p := by rw [List.getD_eq_getElem?_getD, hp]; rfl
  have hq' : src.getD j .zero = q := by rw [List.getD_eq_getElem?_getD, hq]; rfl
  rw [← hp', ← hq']
  exact hsafe j hj

/-- Witness for C1 at a concrete batch over `ℚ` containing a chord pair, an
identity operand and a doubling pair. -/
theorem c1_batch_add_correct_witness :
    ∃ b2, BatchAdder.batch_add (BatchAdder.new 3)
        [G1Affine.point (1 : ZMod 5) 2, G1Affine.zero, G1Affine.point 1 2]
        [G1Affine.point (3 : ZMod 5) 4, G1Affine.point 5 6, G1Affine.point 1 2]
      = some (List.zipWith ecAdd
          [G1Affine.point (1 : ZMod 5) 2, G1Affine.zero, G1Affine.point 1 2]
          [G1Affine.point (3 : ZMod 5) 4, G1Affine.point 5 6, G1Affine.point 1 2], b2) :=
  c1_batch_add_correct 3 (by decide) _ _ rfl (by decide) (by decide)

/-- Claim C2: on any valid same-length batch within capacity, the manual
sequence reset, phase one for `i = 0..len-1` in increasing order,
`inverse()`, phase two for `i = len-1..0` in decreasing order produces
exactly the same final buffer and adder state as one `batch_add` call. -/
theorem c2_phase_decomposition_equiv (b : BatchAdder F)
    (dest src : List (G1Affine F))
    (hlen : dest.length = src.length) (hcap : dest.length ≤ b.inverses.length) :
    BatchAdder.phaseDecomposition b dest src = BatchAdder.batch_add b dest src := by
  rw [BatchAdder.batch_add, if_pos hlen, if_pos hcap, BatchAdder.phaseDecomposition]

/-- Witness for C2 at a concrete batch over `ℚ`. -/
theorem c2_phase_decomposition_equiv_witness :
    BatchAdder.phaseDecomposition (BatchAdder.new 2)
        [G1Affine.point (1 : ZMod 5) 2] [G1Affine.point 3 4]
      = BatchAdder.batch_add (BatchAdder.new 2)
        [G1Affine.point (1 : ZMod 5) 2] [G1Affine.point 3 4] :=
  c2_phase_decomposition_equiv _ _ _ rfl (by decide)

/-- Claim C5: for a non-identity point with `2*y ≠ 0` (every non-identity
point of the repository's odd-order curve), the pair `(P, P)` is resolved
by `batch_add` — also in a batch of length one — to the dedicated doubling
formula, which phase two computes through the zero x-difference, equal-y
branch with `delta_y = 3*Q.x^2`, `delta_x = 2*Q.y`. -/
theorem c5_doubling_path (x y : F) (hy : y + y ≠ 0) :
    ecAdd (G1Affine.point x y) (G1Affine.point x y) = ecDouble (G1Affine.point x y) ∧
    (∃ b2, BatchAdder.batch_add (BatchAdder.new 1)
        [G1Affine.point x y] [G1Affine.point x y]
      = some ([ecDouble (G1Affine.point x y)], b2)) ∧
    (∀ (b : BatchAdder F) (dest src : List (G1Affine F)) (i : Nat),
      dest.length = src.length → dest.length ≤ b.inverses.length →
      (∀ j, j < dest.length →
        contribDelta (dest.getD j .zero) (src.getD j .zero) ≠ some 0) →
      dest[i]? = some (G1Affine.point x y) → src[i]? = some (G1Affine.point x y) →
      ∃ dest2 b2, BatchAdder.batch_add b dest src = some (dest2, b2) ∧
        dest2[i]? = some (ecDouble (G1Affine.point x y))) := by
  have hecd : ecAdd (G1Affine.point x y) (G1Affine.point x y)
      = ecDouble (G1Affine.point x y) := by
    simp [ecAdd, ecDouble]
  have hsafe_conv : ∀ (dest src : List (G1Affine F)),
      (∀ j, j < dest.length →
        contribDelta (dest.getD j .zero) (src.getD j .zero) ≠ some 0) →
      ∀ j, j < dest.length → ∀ p q, dest[j]? = some p → src[j]? = some q →
        contribDelta p q ≠ some 0 := by
    intro dest src hsafe j hj p q hp hq
    have hp' : dest.getD j .zero = p := by rw [List.getD_eq_getElem?_getD, hp]; rfl
    have hq' : src.getD j .zero = q := by rw [List.getD_eq_getElem?_getD, hq]; rfl
    rw [← hp', ← hq']
    exact hsafe j hj
  refine ⟨hecd, ?_, ?_⟩
  · have hs2 : ∀ j, j < ([G1Affine.point x y] : List (G1Affine F)).length →
        ∀ p q, ([G1Affine.point x y] : List (G1Affine F))[j]? = some p →
        ([G1Affine.point x y] : List (G1Affine F))[j]? = some q →
        contribDelta p q ≠ some 0 := by
      intro j hj p q hp hq
      have hj0 : j = 0 := by simpa using hj
      subst hj0
      simp only [List.getElem?_cons_zero, Option.some.injEq] at hp hq
      subst hp; subst hq
      simp [contribDelta, hy]
    obtain ⟨b2, h⟩ := batch_add_spec (BatchAdder.new 1)
      [G1Affine.point x y] [G1Affine.point x y] rfl (by simp [BatchAdder.new]) hs2
    exact ⟨b2, by rw [h]; simp [hecd]⟩
  · intro b dest src i hlen hcap hsafe hpi hqi
    obtain ⟨b2, h⟩ := batch_add_spec b dest src hlen hcap (hsafe_conv dest src hsafe)
    refine ⟨List.zipWith ecAdd dest src, b2, h, ?_⟩
    rw [List.getElem?_zipWith', hpi, hqi]
    simp [hecd]

/-- Witness for C5 at the point `(1, 2)` over `ℚ`. -/
theorem c5_doubling_path_witness :
    ecAdd (G1Affine.point (1 : ZMod 5) 2) (G1Affine.point 1 2)
        = ecDouble (G1Affine.point (1 : ZMod 5) 2) ∧
    (∃ b2, BatchAdder.batch_add (BatchAdder.new 1)
        [G1Affine.point (1 : ZMod 5) 2] [G1Affine.point 1 2]
      = some ([ecDouble (G1Affine.point (1 : ZMod 5) 2)], b2)) ∧
    (∀ (b : BatchAdder (ZMod 5)) (dest src : List (G1Affine (ZMod 5))) (i : Nat),
      dest.length = src.length → dest.length ≤ b.inverses.length →
      (∀ j, j < dest.length →
        contribDelta (dest.getD j .zero) (src.getD j .zero) ≠ some 0) →
      dest[i]? = some (G1Affine.point 1 2) → src[i]? = some (G1Affine.point 1 2) →
      ∃ dest2 b2, BatchAdder.batch_add b dest src = some (dest2, b2) ∧
        dest2[i]? = some (ecDouble (G1Affine.point (1 : ZMod 5) 2))) :=
  c5_doubling_path 1 2 (by decide)

/-- Claim C6: from a freshly reset adder, over non-skipped pairs with
nonzero deltas: a contributing call meeting state one stores a one and
seeds the state with its delta; every contributing call meeting a nonzero
state stores that state (the product of all prior deltas) and multiplies
the state by its delta; and after a full phase-one pass `inverses[i]`
holds the product of the deltas strictly to the left of `i`. -/
theorem c6_phase_one_bookkeeping :
    (∀ (b : BatchAdder F) (p q : G1Affine F) (i : Nat) (d : F),
      i < b.inverses.length → b.inverse_state = 1 → contribDelta p q = some d →
      BatchAdder.batch_add_phase_one b p q i
        = some { inverse_state := d, inverses := b.inverses.set i 1 }) ∧
    (∀ (b : BatchAdder F) (p q : G1Affine F) (i : Nat) (d : F),
      i < b.inverses.length → b.inverse_state ≠ 0 → contribDelta p q = some d →
      BatchAdder.batch_add_phase_one b p q i
        = some { inverse_state := b.inverse_state * d,
                 inverses := b.inverses.set i b.inverse_state }) ∧
    (∀ (b : BatchAdder F) (dest src : List (G1Affine F)),
      dest.length = src.length → dest.length ≤ b.inverses.length →
      (∀ j, j < dest.length →
        ∃ d, contribDelta (dest.getD j .zero) (src.getD j .zero) = some d ∧ d ≠ 0) →
      ∃ b2, BatchAdder.phase1Run dest src (BatchAdder.reset b) 0 dest.length = some b2 ∧
        b2.inverse_state = prodDeltas dest src 1 1 0 dest.length ∧
        ∀ j, j < dest.length → b2.inverses[j]? = some (prodDeltas dest src 1 1 0 j)) := by
  refine ⟨?_, ?_, ?_⟩
  · intro b p q i d hi hone hc
    rw [phase_one_contrib b p q i d hi (by rw [hone]; exact one_ne_zero) hc, hone, one_mul]
  · intro b p q i d hi hne hc
    exact phase_one_contrib b p q i d hi hne hc
  · intro b dest src hlen hcap hcontrib
    have hsafe1 : ∀ j, j < dest.length → ∀ p q, dest[(0+j) * 1]? = some p →
        src[(0+j) * 1]? = some q → contribDelta p q ≠ some 0 := by
      intro j hj p q hp hq
      simp only [Nat.zero_add, Nat.mul_one] at hp hq
      obtain ⟨d, hd, hd0⟩ := hcontrib j hj
      rw [List.getD_eq_getElem?_getD, hp] at hd
      rw [List.getD_eq_getElem?_getD, hq] at hd
      rw [show (some p).getD G1Affine.zero = p from rfl] at hd
      rw [show (some q).getD G1Affine.zero = q from rfl] at hd
      rw [hd]
      exact fun h => hd0 (Option.some.inj h)
    have hbd1 : ∀ j, j < dest.length → (0+j) * 1 < dest.length := by
      intro j hj; simpa using hj
    have hbs1 : ∀ j, j < dest.length → (0+j) * 1 < src.length := by
      intro j hj; simp; omega
    obtain ⟨b1, hrun1, _, hstate1, _, hvals1⟩ :=
      phase1StepRun_spec dest src 1 1 dest.length 0 (BatchAdder.reset b)
        one_ne_zero (by simpa [BatchAdder.reset] using hcap) hbd1 hbs1 hsafe1
    refine ⟨b1, ?_, ?_, ?_⟩
    · rw [phase1Run_eq_step dest src dest.length 0 (BatchAdder.reset b)]
      exact hrun1
    · rw [hstate1]; simp [BatchAdder.reset]
    · intro j hj
      obtain ⟨d, hd, hd0⟩ := hcontrib j hj
      have hpj : dest[j]? = some (dest.getD j .zero) := by
        rw [List.getD_eq_getElem?_getD, List.getElem?_eq_getElem hj]; rfl
      have hqj : src[j]? = some (src.getD j .zero) := by
        rw [List.getD_eq_getElem?_getD, List.getElem?_eq_getElem (by omega)]; rfl
      have := hvals1 j hj (dest.getD j .zero) (src.getD j .zero)
        (by simpa using hpj) (by simpa using hqj) (by rw [hd]; exact fun h => Option.noConfusion h)
      simpa [BatchAdder.reset] using this

/-- Witness for C6: a first contributing call on a fresh adder over `ℚ`. -/
theorem c6_phase_one_bookkeeping_witness :
    BatchAdder.batch_add_phase_one (BatchAdder.new 1)
        (G1Affine.point (1 : ZMod 5) 2) (G1Affine.point 3 4) 0
      = some { inverse_state := 2,
               inverses := (BatchAdder.new 1 : BatchAdder (ZMod 5)).inverses.set 0 1 } :=
  (c6_phase_one_bookkeeping (F := ZMod 5)).1 (BatchAdder.new 1)
    (G1Affine.point 1 2) (G1Affine.point 3 4) 0 2 (by decide) rfl (by decide)

/-- Claim C7: `batch_add_step_n(dest, 1, src, 2, 3)` over 10-element buffers
replaces `dest[i]` by the group sum of the old `dest[i]` and `src[2*i]` for
`i < 3` and leaves `dest[3..10]` untouched; in general the strided variant,
which requires each array to hold at least `(len-1)*step + 1` elements,
writes exactly the `len` strided destination positions. -/
theorem c7_strided_step_n :
    (∀ (b : BatchAdder F) (dest src : List (G1Affine F)),
      3 ≤ b.inverses.length → dest.length = 10 → src.length = 10 →
      (∀ j, j < 3 → contribDelta (dest.getD j .zero) (src.getD (2*j) .zero) ≠ some 0) →
      ∃ dest2 b2, BatchAdder.batch_add_step_n b dest 1 src 2 3 = some (dest2, b2) ∧
        (∀ i, i < 3 → ∀ p q, dest[i]? = some p → src[2*i]? = some q →
          dest2[i]? = some (ecAdd p q)) ∧
        (∀ j, 3 ≤ j → j < 10 → dest2[j]? = dest[j]?)) ∧
    (∀ (b : BatchAdder F) (dest src : List (G1Affine F)) (ds ss len : Nat),
      0 < ds → 0 < len → (len - 1) * ds < dest.length → (len - 1) * ss < src.length →
      len ≤ b.inverses.length →
      (∀ j, j < len →
        contribDelta (dest.getD (j * ds) .zero) (src.getD (j * ss) .zero) ≠ some 0) →
      ∃ dest2 b2, BatchAdder.batch_add_step_n b dest ds src ss len = some (dest2, b2) ∧
        dest2.length = dest.length ∧
        (∀ i, i < len → ∀ p q, dest[i * ds]? = some p → src[i * ss]? = some q →
          dest2[i * ds]? = some (ecAdd p q)) ∧
        (∀ m, (∀ i, i < len → m ≠ i * ds) → dest2[m]? = dest[m]?)) := by
  have general : ∀ (b : BatchAdder F) (dest src : List (G1Affine F)) (ds ss len : Nat),
      0 < ds → 0 < len → (len - 1) * ds < dest.length → (len - 1) * ss < src.length →
      len ≤ b.inverses.length →
      (∀ j, j < len →
        contribDelta (dest.getD (j * ds) .zero) (src.getD (j * ss) .zero) ≠ some 0) →
      ∃ dest2 b2, BatchAdder.batch_add_step_n b dest ds src ss len = some (dest2, b2) ∧
        dest2.length = dest.length ∧
        (∀ i, i < len → ∀ p q, dest[i * ds]? = some p → src[i * ss]? = some q →
          dest2[i * ds]? = some (ecAdd p q)) ∧
        (∀ m, (∀ i, i < len → m ≠ i * ds) → dest2[m]? = dest[m]?) := by
    intro b dest src ds ss len hds hlen hbd hbs hcap hsafe
    refine batch_add_step_n_spec b dest src ds ss len hds hlen hbd hbs hcap ?_
    intro j hj p q hp hq
    have hp' : dest.getD (j * ds) .zero = p := by
      rw [List.getD_eq_getElem?_getD, hp]; rfl
    have hq' : src.getD (j * ss) .zero = q := by
      rw [List.getD_eq_getElem?_getD, hq]; rfl
    rw [← hp', ← hq']
    exact hsafe j hj
  refine ⟨?_, general⟩
  intro b dest src hcap hd10 hs10 hsafe
  have hsafe2 : ∀ j, j < 3 →
      contribDelta (dest.getD (j * 1) .zero) (src.getD (j * 2) .zero) ≠ some 0 := by
    intro j hj
    have h1 := hsafe j hj
    simpa [Nat.mul_comm] using h1
  obtain ⟨dest2, b2, hrun, hlen2, hvals, hframe⟩ :=
    general b dest src 1 2 3 Nat.one_pos (by omega) (by omega) (by omega) hcap hsafe2
  refine ⟨dest2, b2, hrun, ?_, ?_⟩
  · intro i hi p q hp hq
    have := hvals i hi p q (by simpa using hp)
      (by rw [show i * 2 = 2 * i from by ring]; exact hq)
    simpa using this
  · intro j hj3 hj10
    refine hframe j ?_
    intro i hi
    simp only [Nat.mul_one]
    omega

/-- Witness for C7 at concrete 10-element buffers over `ℚ` (destination
entries `(1,2)`, source entries `(3,4)`). -/
theorem c7_strided_step_n_witness :
    ∃ dest2 b2, BatchAdder.batch_add_step_n (BatchAdder.new 3)
        (List.replicate 10 (G1Affine.point (1 : ZMod 5) 2)) 1
        (List.replicate 10 (G1Affine.point (3 : ZMod 5) 4)) 2 3 = some (dest2, b2) ∧
      (∀ i, i < 3 → ∀ p q,
        (List.replicate 10 (G1Affine.point (1 : ZMod 5) 2))[i]? = some p →
        (List.replicate 10 (G1Affine.point (3 : ZMod 5) 4))[2*i]? = some q →
        dest2[i]? = some (ecAdd p q)) ∧
      (∀ j, 3 ≤ j → j < 10 →
        dest2[j]? = (List.replicate 10 (G1Affine.point (1 : ZMod 5) 2))[j]?) :=
  (c7_strided_step_n (F := ZMod 5)).1 (BatchAdder.new 3) _ _ (by decide) (by decide)
    (by decide) (by decide)

/-- Claim C8: `add_unprocessed` on an empty free list is fatal and leaves
the state untouched, and `batch_add` on a length mismatch or an
over-capacity batch fails up front, returning no result at all. -/
theorem c8_fatal_capacity_checks :
    (∀ (s : CollisionState) (d : Nat), CollisionState.is_empty s.free = true →
      CollisionState.add_unprocessed s d
        = CollisionState.CRes.fatal CollisionState.CErr.noFreeSlots s) ∧
    (∀ (b : BatchAdder F) (dest src : List (G1Affine F)),
      dest.length ≠ src.length → BatchAdder.batch_add b dest src = none) ∧
    (∀ (b : BatchAdder F) (dest src : List (G1Affine F)),
      b.inverses.length < dest.length → BatchAdder.batch_add b dest src = none) := by
  refine ⟨?_, ?_, ?_⟩
  · intro s d h
    rw [CollisionState.add_unprocessed,
      if_pos (by simpa [CollisionState.is_empty] using h)]
  · intro b dest src h
    rw [BatchAdder.batch_add, if_neg h]
  · intro b dest src h
    rw [BatchAdder.batch_add]
    split_ifs with h1 h2
    · omega
    · rfl
    · rfl

/-- Witness for C8 at concrete inputs. -/
theorem c8_fatal_capacity_checks_witness :
    CollisionState.add_unprocessed CollisionState.csEmptyFree 5
        = CollisionState.CRes.fatal CollisionState.CErr.noFreeSlots
            CollisionState.csEmptyFree ∧
    BatchAdder.batch_add (BatchAdder.new 1) [G1Affine.point (1 : ZMod 5) 2] [] = none ∧
    BatchAdder.batch_add (BatchAdder.new 1)
      [G1Affine.point (1 : ZMod 5) 2, G1Affine.zero] [G1Affine.zero, G1Affine.zero] = none :=
  ⟨(c8_fatal_capacity_checks (F := ZMod 5)).1 _ 5 (by decide),
    (c8_fatal_capacity_checks (F := ZMod 5)).2.1 _ _ _ (by decide),
    (c8_fatal_capacity_checks (F := ZMod 5)).2.2 _ _ _ (by decide)⟩

/-- Claim C9: `batch_add_step_n` with `len = 0` is rejected fatally — the
bounds check computes `(len - 1) * dest_step` and the `usize` subtraction
underflows — even though `batch_add` accepts empty equal-length slices as
a no-op. -/
theorem c9_step_n_zero_len :
    (∀ (b : BatchAdder F) (dest src : List (G1Affine F)) (ds ss : Nat), 1 ≤ ds →
      BatchAdder.batch_add_step_n b dest ds src ss 0 = none) ∧
    (∀ b : BatchAdder F, ∃ b2, BatchAdder.batch_add b [] [] = some ([], b2)) := by
  constructor
  · intro b dest src ds ss hds
    rw [BatchAdder.batch_add_step_n, show usizeSub 0 1 = none from rfl]
  · intro b
    have := batch_add_spec b [] [] rfl (by simp) (fun j hj => absurd hj (Nat.not_lt_zero j))
    simpa using this

/-- Witness for C9 at concrete inputs over `ℚ`. -/
theorem c9_step_n_zero_len_witness :
    BatchAdder.batch_add_step_n (BatchAdder.new 4)
        [G1Affine.point (1 : ZMod 5) 2] 1 [G1Affine.point 3 4] 1 0 = none ∧
    ∃ b2, BatchAdder.batch_add (BatchAdder.new 4) ([] : List (G1Affine (ZMod 5))) [] = some ([], b2) :=
  ⟨(c9_step_n_zero_len (F := ZMod 5)).1 _ _ _ 1 1 (by decide),
    (c9_step_n_zero_len (F := ZMod 5)).2 _⟩

end BatchAdderProofs

/-! ## Properties of the collision scheduler -/

section CollisionProofs

open CollisionState

theorem NIL_lt_U32 : CollisionState.NIL < CollisionState.U32 := by decide

theorem U32_lt_USIZE : CollisionState.U32 < USIZE := by decide

/-- Chains compose. -/
theorem chainFromTo_append (entries : List Entry) :
    ∀ (l1 : List Nat) (h m : Nat) (l2 : List Nat) (t : Nat),
      chainFromTo entries h l1 m → chainFromTo entries m l2 t →
      chainFromTo entries h (l1 ++ l2) t := by
  intro l1
  induction l1 with
  | nil =>
    intro h m l2 t h1 h2
    have he : h = m := h1
    subst he
    simpa using h2
  | cons x xs ih =>
    intro h m l2 t h1 h2
    simp only [chainFromTo, List.cons_append] at h1 ⊢
    obtain ⟨hx, e, he, hrest⟩ := h1
    exact ⟨hx, e, he, ih e.next m l2 t hrest h2⟩

/-- A chain only reads the `next` links of its own members, so it survives
any update that preserves those links. -/
theorem chainFromTo_congr (es es2 : List Entry) :
    ∀ (l : List Nat) (h t : Nat),
      (∀ x ∈ l, Option.map Entry.next es2[x]? = Option.map Entry.next es[x]?) →
      chainFromTo es h l t → chainFromTo es2 h l t := by
  intro l
  induction l with
  | nil => intro h t _ hc; exact hc
  | cons x xs ih =>
    intro h t hag hc
    simp only [chainFromTo] at hc ⊢
    obtain ⟨hx, e, he, hrest⟩ := hc
    have hag0 := hag x (by simp)
    rw [he] at hag0
    simp only [Option.map_some'] at hag0
    obtain ⟨e2, he2, hnext⟩ := Option.map_eq_some'.mp hag0
    refine ⟨hx, e2, he2, ?_⟩
    rw [hnext]
    exact ih e.next t (fun y hy => hag y (by simp [hy])) hrest

/-- Redirecting the terminal link of a chain: updating the last member's
`next` to `v` (and nothing else along the chain) turns a chain ending in
`t` into a chain ending in `v`. -/
theorem chainFromTo_retarget (es es2 : List Entry) :
    ∀ (ys : List Nat) (z : Nat) (h t v : Nat),
      chainFromTo es h (ys ++ [z]) t →
      (∀ x ∈ ys, es2[x]? = es[x]?) →
      (∀ e, es[z]? = some e → es2[z]? = some { e with next := v }) →
      chainFromTo es2 h (ys ++ [z]) v := by
  intro ys
  induction ys with
  | nil =>
    intro z h t v hc hys hz
    simp only [List.nil_append, chainFromTo] at hc ⊢
    obtain ⟨hx, e, he, _⟩ := hc
    exact ⟨hx, { e with next := v }, hz e he, rfl⟩
  | cons a ys ih =>
    intro z h t v hc hys hz
    simp only [List.cons_append, chainFromTo] at hc ⊢
    obtain ⟨hx, e, he, hrest⟩ := hc
    refine ⟨hx, e, ?_, ?_⟩
    · rw [hys a (by simp), he]
    · exact ih z e.next t v hrest (fun x hx2 => hys x (by simp [hx2])) hz

/-- Dequeuing from a queue representing `x :: xs` succeeds, returns `x`
and leaves a queue representing `xs`. -/
theorem dequeue_ok (entries : List Entry) (q : Queue) (x : Nat) (xs : List Nat)
    (hql : isQueueList entries q (x :: xs))
    (hnd : (x :: xs).Nodup)
    (hmem : ∀ y ∈ x :: xs, y < entries.length)
    (hbound : entries.length ≤ CollisionState.NIL) :
    ∃ q2, dequeue q entries = .ok (x, q2) ∧ isQueueList entries q2 xs := by
  obtain ⟨hc, htail⟩ := hql
  simp only [chainFromTo] at hc
  obtain ⟨hx, e, he, hrest⟩ := hc
  have hxlen : x < entries.length := hmem x (by simp)
  have hxNIL : x ≠ CollisionState.NIL := by omega
  cases xs with
  | nil =>
    have ht : q.tail = x := by simpa using htail
    refine ⟨clearQ, ?_, ?_, ?_⟩
    · rw [dequeue, if_neg (by rw [hx]; exact hxNIL), if_pos (by rw [hx, ht])]
      rw [hx]
    · simp [chainFromTo, clearQ]
    · simp [clearQ]
  | cons y ys =>
    have hz := List.getLast?_eq_getLast (y :: ys) (by simp)
    set z := (y :: ys).getLast (by simp) with hzdef
    have hzmem : z ∈ y :: ys := List.getLast_mem (by simp)
    have ht : q.tail = z := by
      rw [htail, List.getLast?_cons_cons, hz]
      rfl
    have hxz : x ≠ z := by
      intro hcontra
      have : x ∈ y :: ys := hcontra ▸ hzmem
      simp only [List.nodup_cons] at hnd
      exact hnd.1 this
    refine ⟨⟨e.next, q.tail⟩, ?_, ?_, ?_⟩
    · rw [dequeue, if_neg (by rw [hx]; exact hxNIL),
        if_neg (by rw [hx, ht]; exact hxz), hx, he]
    · exact hrest
    · rw [ht, hz]
      rfl

/-- Enqueuing `x` onto a queue representing `l` succeeds, produces a queue
representing `l ++ [x]`, and only touches the entries of `l` (the last
member, whose terminal link is redirected) and of `x` itself. -/
theorem enqueue_ok (entries : List Entry) (q : Queue) (l : List Nat) (x : Nat)
    (hql : isQueueList entries q l)
    (hnd : l.Nodup)
    (hx : x < entries.length)
    (hxl : x ∉ l)
    (hmem : ∀ y ∈ l, y < entries.length)
    (hbound : entries.length ≤ CollisionState.NIL) :
    ∃ q2 es2, enqueue q entries x = .ok (q2, es2) ∧
      isQueueList es2 q2 (l ++ [x]) ∧
      es2.length = entries.length ∧
      (∀ m, m ∉ l → m ≠ x → es2[m]? = entries[m]?) := by
  obtain ⟨hc, htail⟩ := hql
  obtain ⟨ex, hex⟩ : ∃ e, entries[x]? = some e := ⟨_, List.getElem?_eq_getElem hx⟩
  cases l with
  | nil =>
    have hh : q.head = CollisionState.NIL := hc
    refine ⟨⟨x, x⟩, entries.set x { ex with next := CollisionState.NIL }, ?_,
      ⟨?_, ?_⟩, by simp, ?_⟩
    · rw [enqueue, if_pos hh, setNextEntry, hex]
    · simp only [List.nil_append]
      exact ⟨rfl, { ex with next := CollisionState.NIL },
        List.getElem?_set_self hx, rfl⟩
    · simp
    · intro m _ hmx
      exact List.getElem?_set_ne (Ne.symm hmx)
  | cons y ys =>
    have hheadne : q.head ≠ CollisionState.NIL := by
      simp only [chainFromTo] at hc
      obtain ⟨hy, _⟩ := hc
      have hylen : y < entries.length := hmem y (by simp)
      omega
    have hznz : (y :: ys) ≠ [] := by simp
    have hzeq := List.getLast?_eq_getLast (y :: ys) hznz
    set z := (y :: ys).getLast hznz with hzdef
    have hzmem : z ∈ y :: ys := List.getLast_mem hznz
    have hzlen : z < entries.length := hmem z hzmem
    have ht : q.tail = z := by rw [htail, hzeq]; rfl
    have hxz : x ≠ z := fun hcontra => hxl (hcontra ▸ hzmem)
    obtain ⟨ez, hez⟩ : ∃ e, entries[z]? = some e := ⟨_, List.getElem?_eq_getElem hzlen⟩
    refine ⟨⟨q.head, x⟩, ((entries.set z { ez with next := x }).set x
      { ex with next := CollisionState.NIL }), ?_, ⟨?_, ?_⟩, by simp, ?_⟩
    · have h1 : setNextEntry entries q.tail x
          = some (entries.set z { ez with next := x }) := by
        rw [setNextEntry, ht, hez]
      have h2 : setNextEntry (entries.set z { ez with next := x }) x CollisionState.NIL
          = some ((entries.set z { ez with next := x }).set x
              { ex with next := CollisionState.NIL }) := by
        rw [setNextEntry, List.getElem?_set_ne (Ne.symm hxz), hex]
      simp only [enqueue, if_neg hheadne, h1, h2]
    · obtain ⟨init, hinit⟩ : ∃ init, init ++ [z] = y :: ys :=
        ⟨(y :: ys).dropLast, List.dropLast_append_getLast hznz⟩
      have hchain1 : chainFromTo ((entries.set z { ez with next := x }).set x
          { ex with next := CollisionState.NIL }) q.head (y :: ys) x := by
        rw [← hinit]
        refine chainFromTo_retarget entries _ init z q.head CollisionState.NIL x
          (by rw [hinit]; exact hc) ?_ ?_
        · intro u hu
          have huz : u ≠ z := by
            have hnd2 : (init ++ [z]).Nodup := by rw [hinit]; exact hnd
            have hdisj := List.disjoint_of_nodup_append hnd2
            exact fun hcon => hdisj hu (by simp [hcon])
          have hux : u ≠ x := by
            intro hcon
            exact hxl (by rw [← hinit, ← hcon]; exact List.mem_append_left _ hu)
          rw [List.getElem?_set_ne (Ne.symm hux), List.getElem?_set_ne (Ne.symm huz)]
        · intro e he
          rw [hez] at he
          cases he
          rw [List.getElem?_set_ne hxz, List.getElem?_set_self hzlen]
      have hchain2 : chainFromTo ((entries.set z { ez with next := x }).set x
          { ex with next := CollisionState.NIL }) x [x] CollisionState.NIL := by
        exact ⟨rfl, { ex with next := CollisionState.NIL },
          List.getElem?_set_self (by simpa using hx), rfl⟩
      exact chainFromTo_append _ (y :: ys) q.head x [x] CollisionState.NIL
        hchain1 hchain2
    · rw [List.getLast?_concat]
      rfl
    · intro m hml hmx
      have hmz : m ≠ z := fun hcon => hml (hcon ▸ hzmem)
      rw [List.getElem?_set_ne (Ne.symm hmx), List.getElem?_set_ne (Ne.symm hmz)]


/-- In a pool permutation, every index occurs at most once across the four
groups. -/
theorem group_counts_le_one {n : Nat} {lf lp lu out : List Nat}
    (hperm : (lf ++ lp ++ lu ++ out).Perm (List.range (2 * n))) :
    ∀ y, lf.count y + lp.count y + lu.count y + out.count y ≤ 1 := by
  intro y
  have h := hperm.count_eq y
  simp only [List.count_append] at h
  have h2 : (List.range (2 * n)).count y ≤ 1 := by
    by_cases hy : y < 2 * n
    · rw [List.count_eq_one_of_mem (List.nodup_range _) (List.mem_range.mpr hy)]
    · rw [List.count_eq_zero_of_not_mem (by simpa [List.mem_range] using hy)]
      omega
  omega

/-- Every index in one of the groups is a valid pool index. -/
theorem group_mem_lt {n : Nat} {lf lp lu out : List Nat}
    (hperm : (lf ++ lp ++ lu ++ out).Perm (List.range (2 * n))) :
    ∀ y, (y ∈ lf ∨ y ∈ lp ∨ y ∈ lu ∨ y ∈ out) → y < 2 * n := by
  intro y hy
  refine List.mem_range.mp (hperm.subset ?_)
  simp only [List.mem_append]
  tauto

/-- `add_unprocessed` preserves the pool invariant. -/
theorem inv_add {n : Nat} {s s2 : CollisionState} {out : List Nat} {d i : Nat}
    (h32 : 2 * n < CollisionState.U32)
    (hinv : PoolInv n s out)
    (hok : add_unprocessed s d = .ok i s2) :
    PoolInv n s2 out := by
  obtain ⟨lf, lp, lu, hf, hp, hu, hperm, hcount, hlen, hmax⟩ := hinv
  have hcnt := group_counts_le_one hperm
  have hmemlt := group_mem_lt hperm
  have hNILval : CollisionState.NIL + 1 = CollisionState.U32 := by decide
  have hbound : s.entries.length ≤ CollisionState.NIL := by omega
  cases lf with
  | nil =>
    have hh : s.free.head = CollisionState.NIL := hf.1
    rw [add_unprocessed, if_pos hh] at hok
    cases hok
  | cons f0 lf2 =>
    have hndf : (f0 :: lf2).Nodup := by
      rw [List.nodup_iff_count_le_one]
      intro a
      have := hcnt a
      omega
    have hmemf : ∀ y ∈ f0 :: lf2, y < s.entries.length := by
      intro y hy; rw [hlen]; exact hmemlt y (Or.inl hy)
    obtain ⟨fq, hdeq, hql2⟩ := dequeue_ok s.entries s.free f0 lf2 hf hndf hmemf hbound
    have hf0len : f0 < s.entries.length := hmemf f0 (by simp)
    have hh : s.free.head ≠ CollisionState.NIL := by
      have : s.free.head = f0 := hf.1.1
      omega
    obtain ⟨e0, he0⟩ : ∃ e, s.entries[f0]? = some e := ⟨_, List.getElem?_eq_getElem hf0len⟩
    -- the data write: next links everywhere unchanged
    set entriesD := s.entries.set f0 { e0 with data := d } with hD
    have hDnext : ∀ m : Nat,
        Option.map Entry.next entriesD[m]? = Option.map Entry.next s.entries[m]? := by
      intro m
      by_cases hm : m = f0
      · subst hm
        rw [hD, List.getElem?_set_self hf0len, he0]
        rfl
      · rw [hD, List.getElem?_set_ne (Ne.symm hm)]
    have hDlen : entriesD.length = s.entries.length := by rw [hD]; simp
    have hql_congr : ∀ (q : Queue) (l : List Nat),
        isQueueList s.entries q l → isQueueList entriesD q l := by
      intro q l hql
      exact ⟨chainFromTo_congr s.entries entriesD l q.head CollisionState.NIL
        (fun x _ => hDnext x) hql.1, hql.2⟩
    -- enqueue the slot onto unprocessed
    have hf0nu : f0 ∉ lu := by
      intro hmem
      have h1 : 0 < (f0 :: lf2).count f0 := List.count_pos_iff.mpr (by simp)
      have h2 : 0 < lu.count f0 := List.count_pos_iff.mpr hmem
      have := hcnt f0
      omega
    have hndu : lu.Nodup := by
      rw [List.nodup_iff_count_le_one]
      intro a
      have := hcnt a
      omega
    obtain ⟨q2, es2, henq, hql3, hlen3, hframe3⟩ :=
      enqueue_ok entriesD s.unprocessed lu f0 (hql_congr _ _ hu) hndu
        (by omega) hf0nu
        (fun y hy => by rw [hDlen, hlen]; exact hmemlt y (Or.inr (Or.inr (Or.inl hy))))
        (by omega)
    have hcountlt : s.collision_count + 1 < USIZE := by
      have hl := hperm.length_eq
      simp only [List.length_append, List.length_range] at hl
      have : lu.length ≤ 2 * n := by omega
      have := U32_lt_USIZE
      omega
    have hmark : mark_entry_unprocessed
        { s with free := fq, entries := entriesD } f0
        = .ok () { s with
                   free := fq
                   entries := es2
                   collision_count := s.collision_count + 1
                   unprocessed := q2 } := by
      simp only [mark_entry_unprocessed, if_pos hcountlt, henq]
    rw [add_unprocessed, if_neg hh] at hok
    rw [hdeq] at hok
    simp only [he0] at hok
    rw [show ({ s with free := fq } : CollisionState).entries.set f0
        { e0 with data := d } = entriesD from rfl] at hok
    simp only [hmark] at hok
    injection hok with hi hs
    subst hs
    refine ⟨lf2, lp, lu ++ [f0], ?_, ?_, ?_, ?_, ?_, ?_, ?_⟩
    · -- free
      refine ⟨chainFromTo_congr entriesD es2 lf2 fq.head CollisionState.NIL ?_
        ((hql_congr _ _ hql2).1), ((hql_congr _ _ hql2).2)⟩
      intro x hxm
      have hxnu : x ∉ lu := by
        intro hmem
        have h1 : 0 < (f0 :: lf2).count x := List.count_pos_iff.mpr (by simp [hxm])
        have h2 : 0 < lu.count x := List.count_pos_iff.mpr hmem
        have := hcnt x
        omega
      have hxf0 : x ≠ f0 := by
        intro hcon
        subst hcon
        have := hcnt x
        have h1 : 2 ≤ (x :: lf2).count x := by
          simp only [List.count_cons_self]
          have : 0 < lf2.count x := List.count_pos_iff.mpr hxm
          omega
        omega
      rw [hframe3 x hxnu hxf0]
    · -- processing
      refine ⟨chainFromTo_congr entriesD es2 lp s.processing.head CollisionState.NIL ?_
        ((hql_congr _ _ hp).1), ((hql_congr _ _ hp).2)⟩
      intro x hxm
      have hxnu : x ∉ lu := by
        intro hmem
        have h1 : 0 < lp.count x := List.count_pos_iff.mpr hxm
        have h2 : 0 < lu.count x := List.count_pos_iff.mpr hmem
        have := hcnt x
        omega
      have hxf0 : x ≠ f0 := by
        intro hcon
        subst hcon
        have h1 : 0 < lp.count x := List.count_pos_iff.mpr hxm
        have h2 : 0 < (x :: lf2).count x := by simp
        have := hcnt x
        omega
      rw [hframe3 x hxnu hxf0]
    · exact hql3
    · -- permutation
      rw [List.perm_iff_count]
      intro a
      have h := hperm.count_eq a
      simp only [List.count_append, List.count_cons] at h ⊢
      by_cases ha : a = f0 <;> simp [ha] at h ⊢ <;> omega
    · -- collision count
      show s.collision_count + 1 = (lu ++ [f0]).length
      rw [hcount]
      simp
    · show es2.length = 2 * n
      omega
    · exact hmax

/-- `dequeue_unprocessed` preserves the pool invariant, handing the popped
index to the caller. -/
theorem inv_deq {n : Nat} {s s2 : CollisionState} {out : List Nat} {i : Nat}
    (h32 : 2 * n < CollisionState.U32)
    (hinv : PoolInv n s out)
    (hok : dequeue_unprocessed s = .ok i s2) :
    PoolInv n s2 (i :: out) := by
  obtain ⟨lf, lp, lu, hf, hp, hu, hperm, hcount, hlen, hmax⟩ := hinv
  have hcnt := group_counts_le_one hperm
  have hmemlt := group_mem_lt hperm
  have hNILval : CollisionState.NIL + 1 = CollisionState.U32 := by decide
  have hbound : s.entries.length ≤ CollisionState.NIL := by omega
  rw [dequeue_unprocessed] at hok
  cases husub : usizeSub s.collision_count 1 with
  | none => rw [husub] at hok; cases hok
  | some c =>
    rw [husub] at hok
    have hc1 : s.collision_count = c + 1 := by
      rw [usizeSub] at husub
      split_ifs at husub with hle
      · injection husub with hcc
        omega
    cases lu with
    | nil =>
      exfalso
      rw [hcount] at hc1
      simp at hc1
    | cons u0 lu2 =>
      have hndu : (u0 :: lu2).Nodup := by
        rw [List.nodup_iff_count_le_one]
        intro a
        have := hcnt a
        omega
      have hmemu : ∀ y ∈ u0 :: lu2, y < s.entries.length := by
        intro y hy; rw [hlen]; exact hmemlt y (Or.inr (Or.inr (Or.inl hy)))
      obtain ⟨uq, hdeq, hql2⟩ := dequeue_ok s.entries s.unprocessed u0 lu2 hu hndu hmemu hbound
      rw [hdeq] at hok
      injection hok with hi hs
      subst hs
      subst hi
      refine ⟨lf, lp, lu2, hf, hp, hql2, ?_, ?_, hlen, hmax⟩
      · rw [List.perm_iff_count]
        intro a
        have h := hperm.count_eq a
        simp only [List.count_append, List.count_cons] at h ⊢
        by_cases ha : a = u0 <;> simp [ha] at h ⊢ <;> omega
      · show c = lu2.length
        rw [hcount] at hc1
        simp only [List.length_cons] at hc1
        omega

/-- `mark_entry_processing` on a checked-out index preserves the pool
invariant. -/
theorem inv_markp {n : Nat} {s s2 : CollisionState} {out : List Nat} {i : Nat}
    (h32 : 2 * n < CollisionState.U32)
    (hinv : PoolInv n s out)
    (hiout : i ∈ out)
    (hok : mark_entry_processing s i = .ok () s2) :
    PoolInv n s2 (out.erase i) := by
  obtain ⟨lf, lp, lu, hf, hp, hu, hperm, hcount, hlen, hmax⟩ := hinv
  have hcnt := group_counts_le_one hperm
  have hmemlt := group_mem_lt hperm
  have hNILval : CollisionState.NIL + 1 = CollisionState.U32 := by decide
  have hbound : s.entries.length ≤ CollisionState.NIL := by omega
  have hico : 0 < out.count i := List.count_pos_iff.mpr hiout
  have hndp : lp.Nodup := by
    rw [List.nodup_iff_count_le_one]
    intro a
    have := hcnt a
    omega
  have hinp : i ∉ lp := by
    intro hmem
    have h2 : 0 < lp.count i := List.count_pos_iff.mpr hmem
    have := hcnt i
    omega
  have hinu : i ∉ lu := by
    intro hmem
    have h2 : 0 < lu.count i := List.count_pos_iff.mpr hmem
    have := hcnt i
    omega
  have hinf : i ∉ lf := by
    intro hmem
    have h2 : 0 < lf.count i := List.count_pos_iff.mpr hmem
    have := hcnt i
    omega
  obtain ⟨q2, es2, henq, hql3, hlen3, hframe3⟩ :=
    enqueue_ok s.entries s.processing lp i hp hndp
      (by rw [hlen]; exact hmemlt i (Or.inr (Or.inr (Or.inr hiout))))
      hinp
      (fun y hy => by rw [hlen]; exact hmemlt y (Or.inr (Or.inl hy)))
      hbound
  rw [mark_entry_processing, henq] at hok
  injection hok with _ hs
  subst hs
  have hcongr : ∀ (q : Queue) (l : List Nat), (∀ y ∈ l, y ∉ lp ∧ y ≠ i) →
      isQueueList s.entries q l → isQueueList es2 q l := by
    intro q l hdis hql
    exact ⟨chainFromTo_congr s.entries es2 l q.head CollisionState.NIL
      (fun x hx => by rw [hframe3 x (hdis x hx).1 (hdis x hx).2]) hql.1, hql.2⟩
  refine ⟨lf, lp ++ [i], lu, ?_, hql3, ?_, ?_, hcount, ?_, hmax⟩
  · refine hcongr _ _ ?_ hf
    intro y hy
    constructor
    · intro hmem
      have h1 : 0 < lf.count y := List.count_pos_iff.mpr hy
      have h2 : 0 < lp.count y := List.count_pos_iff.mpr hmem
      have := hcnt y
      omega
    · exact fun hcon => hinf (hcon ▸ hy)
  · refine hcongr _ _ ?_ hu
    intro y hy
    constructor
    · intro hmem
      have h1 : 0 < lu.count y := List.count_pos_iff.mpr hy
      have h2 : 0 < lp.count y := List.count_pos_iff.mpr hmem
      have := hcnt y
      omega
    · exact fun hcon => hinu (hcon ▸ hy)
  · rw [List.perm_iff_count]
    intro a
    have h := hperm.count_eq a
    simp only [List.count_append, List.count_cons, List.count_erase] at h ⊢
    by_cases ha : a = i
    · subst ha; simp at h ⊢; omega
    · simp [ha, Ne.symm ha] at h ⊢; omega
  · show es2.length = 2 * n
    omega

/-- `mark_entry_unprocessed` on a checked-out index preserves the pool
invariant. -/
theorem inv_marku {n : Nat} {s s2 : CollisionState} {out : List Nat} {i : Nat}
    (h32 : 2 * n < CollisionState.U32)
    (hinv : PoolInv n s out)
    (hiout : i ∈ out)
    (hok : mark_entry_unprocessed s i = .ok () s2) :
    PoolInv n s2 (out.erase i) := by
  obtain ⟨lf, lp, lu, hf, hp, hu, hperm, hcount, hlen, hmax⟩ := hinv
  have hcnt := group_counts_le_one hperm
  have hmemlt := group_mem_lt hperm
  have hNILval : CollisionState.NIL + 1 = CollisionState.U32 := by decide
  have hbound : s.entries.length ≤ CollisionState.NIL := by omega
  have hico : 0 < out.count i := List.count_pos_iff.mpr hiout
  have hndu : lu.Nodup := by
    rw [List.nodup_iff_count_le_one]
    intro a
    have := hcnt a
    omega
  have hinu : i ∉ lu := by
    intro hmem
    have h2 : 0 < lu.count i := List.count_pos_iff.mpr hmem
    have := hcnt i
    omega
  have hinp : i ∉ lp := by
    intro hmem
    have h2 : 0 < lp.count i := List.count_pos_iff.mpr hmem
    have := hcnt i
    omega
  have hinf : i ∉ lf := by
    intro hmem
    have h2 : 0 < lf.count i := List.count_pos_iff.mpr hmem
    have := hcnt i
    omega
  have hcountlt : s.collision_count + 1 < USIZE := by
    have hl := hperm.length_eq
    simp only [List.length_append, List.length_range] at hl
    have h1 : lu.length ≤ 2 * n := by omega
    have h2 := U32_lt_USIZE
    rw [hcount]
    omega
  obtain ⟨q2, es2, henq, hql3, hlen3, hframe3⟩ :=
    enqueue_ok s.entries s.unprocessed lu i hu hndu
      (by rw [hlen]; exact hmemlt i (Or.inr (Or.inr (Or.inr hiout))))
      hinu
      (fun y hy => by rw [hlen]; exact hmemlt y (Or.inr (Or.inr (Or.inl hy))))
      hbound
  rw [mark_entry_unprocessed, if_pos hcountlt] at hok
  simp only [henq] at hok
  injection hok with _ hs
  subst hs
  have hcongr : ∀ (q : Queue) (l : List Nat), (∀ y ∈ l, y ∉ lu ∧ y ≠ i) →
      isQueueList s.entries q l → isQueueList es2 q l := by
    intro q l hdis hql
    exact ⟨chainFromTo_congr s.entries es2 l q.head CollisionState.NIL
      (fun x hx => by rw [hframe3 x (hdis x hx).1 (hdis x hx).2]) hql.1, hql.2⟩
  refine ⟨lf, lp, lu ++ [i], ?_, ?_, hql3, ?_, ?_, ?_, hmax⟩
  · refine hcongr _ _ ?_ hf
    intro y hy
    constructor
    · intro hmem
      have h1 : 0 < lf.count y := List.count_pos_iff.mpr hy
      have h2 : 0 < lu.count y := List.count_pos_iff.mpr hmem
      have := hcnt y
      omega
    · exact fun hcon => hinf (hcon ▸ hy)
  · refine hcongr _ _ ?_ hp
    intro y hy
    constructor
    · intro hmem
      have h1 : 0 < lp.count y := List.count_pos_iff.mpr hy
      have h2 : 0 < lu.count y := List.count_pos_iff.mpr hmem
      have := hcnt y
      omega
    · exact fun hcon => hinp (hcon ▸ hy)
  · rw [List.perm_iff_count]
    intro a
    have h := hperm.count_eq a
    simp only [List.count_append, List.count_cons, List.count_erase] at h ⊢
    by_cases ha : a = i
    · subst ha; simp at h ⊢; omega
    · simp [ha, Ne.symm ha] at h ⊢; omega
  · show s.collision_count + 1 = (lu ++ [i]).length
    rw [hcount]
    simp
  · show es2.length = 2 * n
    omega

/-- `free_processing` preserves the pool invariant. -/
theorem inv_freep {n : Nat} {s s2 : CollisionState} {out : List Nat}
    (h32 : 2 * n < CollisionState.U32)
    (hinv : PoolInv n s out)
    (hok : free_processing s = .ok () s2) :
    PoolInv n s2 out := by
  obtain ⟨lf, lp, lu, hf, hp, hu, hperm, hcount, hlen, hmax⟩ := hinv
  have hcnt := group_counts_le_one hperm
  have hmemlt := group_mem_lt hperm
  have hNILval : CollisionState.NIL + 1 = CollisionState.U32 := by decide
  have hbound : s.entries.length ≤ CollisionState.NIL := by omega
  cases lp with
  | nil =>
    have hh : s.processing.head = CollisionState.NIL := hp.1
    rw [free_processing, if_pos hh] at hok
    injection hok with _ hs
    subst hs
    exact ⟨lf, [], lu, hf, hp, hu, hperm, hcount, hlen, hmax⟩
  | cons p0 lp2 =>
    have hp0lt : p0 < s.entries.length := by
      rw [hlen]; exact hmemlt p0 (Or.inr (Or.inl (by simp)))
    have hh : s.processing.head ≠ CollisionState.NIL := by
      have : s.processing.head = p0 := hp.1.1
      omega
    rw [free_processing, if_neg hh] at hok
    cases lf with
    | nil =>
      have hhf : s.free.head = CollisionState.NIL := hf.1
      rw [if_pos hhf] at hok
      injection hok with _ hs
      subst hs
      refine ⟨p0 :: lp2, [], lu, hp, ?_, hu, ?_, hcount, hlen, hmax⟩
      · exact ⟨rfl, rfl⟩
      · rw [List.perm_iff_count]
        intro a
        have h := hperm.count_eq a
        simp only [List.count_append, List.count_cons, List.count_nil] at h ⊢
        omega
    | cons f0 lf2 =>
      have hf0lt : f0 < s.entries.length := by
        rw [hlen]; exact hmemlt f0 (Or.inl (by simp))
      have hhf : s.free.head ≠ CollisionState.NIL := by
        have : s.free.head = f0 := hf.1.1
        omega
      rw [if_neg hhf] at hok
      -- the splice target: the last entry of the free list
      have hfnz : (f0 :: lf2) ≠ [] := by simp
      have hzeq := List.getLast?_eq_getLast (f0 :: lf2) hfnz
      set z := (f0 :: lf2).getLast hfnz with hzdef
      have hzmem : z ∈ f0 :: lf2 := List.getLast_mem hfnz
      have hzlt : z < s.entries.length := by
        rw [hlen]; exact hmemlt z (Or.inl hzmem)
      have ht : s.free.tail = z := by rw [hf.2, hzeq]; rfl
      obtain ⟨ez, hez⟩ : ∃ e, s.entries[z]? = some e := ⟨_, List.getElem?_eq_getElem hzlt⟩
      have hsetnext : setNextEntry s.entries s.free.tail s.processing.head
          = some (s.entries.set z { ez with next := s.processing.head }) := by
        rw [setNextEntry, ht, hez]
      rw [hsetnext] at hok
      injection hok with _ hs
      subst hs
      set esS := s.entries.set z { ez with next := s.processing.head } with hesS
      have hp0head : s.processing.head = p0 := hp.1.1
      -- entries agree off z
      have hoffz : ∀ m : Nat, m ≠ z → esS[m]? = s.entries[m]? := by
        intro m hm
        rw [hesS, List.getElem?_set_ne (Ne.symm hm)]
      have hcongr : ∀ (q : Queue) (l : List Nat), (∀ y ∈ l, y ≠ z) →
          isQueueList s.entries q l → isQueueList esS q l := by
        intro q l hdis hql
        exact ⟨chainFromTo_congr s.entries esS l q.head CollisionState.NIL
          (fun x hx => by rw [hoffz x (hdis x hx)]) hql.1, hql.2⟩
      refine ⟨(f0 :: lf2) ++ (p0 :: lp2), [], lu, ⟨?_, ?_⟩, ⟨rfl, rfl⟩, ?_, ?_, hcount, ?_, hmax⟩
      · -- chain of the spliced free list
        obtain ⟨init, hinit⟩ : ∃ init, init ++ [z] = f0 :: lf2 :=
          ⟨(f0 :: lf2).dropLast, List.dropLast_append_getLast hfnz⟩
        have hndf : (f0 :: lf2).Nodup := by
          rw [List.nodup_iff_count_le_one]
          intro a
          have := hcnt a
          omega
        have hchain1 : chainFromTo esS s.free.head (f0 :: lf2) p0 := by
          rw [← hinit]
          refine chainFromTo_retarget s.entries esS init z s.free.head
            CollisionState.NIL p0 (by rw [hinit]; exact hf.1) ?_ ?_
          · intro u hu2
            have huz : u ≠ z := by
              have hnd2 : (init ++ [z]).Nodup := by rw [hinit]; exact hndf
              have hdisj := List.disjoint_of_nodup_append hnd2
              exact fun hcon => hdisj hu2 (by simp [hcon])
            exact hoffz u huz
          · intro e he
            rw [hez] at he
            cases he
            rw [hesS, List.getElem?_set_self hzlt, hp0head]
        have hchain2 : chainFromTo esS p0 (p0 :: lp2) CollisionState.NIL := by
          refine chainFromTo_congr s.entries esS (p0 :: lp2) p0
            CollisionState.NIL ?_ (hp0head ▸ hp.1)
          intro x hx
          have hxz : x ≠ z := by
            intro hcon
            have h1 : 0 < (p0 :: lp2).count x := List.count_pos_iff.mpr hx
            have h2 : 0 < (f0 :: lf2).count x := List.count_pos_iff.mpr (hcon ▸ hzmem)
            have := hcnt x
            omega
          rw [hoffz x hxz]
        exact chainFromTo_append esS (f0 :: lf2) s.free.head p0 (p0 :: lp2)
          CollisionState.NIL hchain1 hchain2
      · -- tail of the spliced free list
        show s.processing.tail = ((f0 :: lf2) ++ (p0 :: lp2)).getLast?.getD CollisionState.NIL
        rw [List.getLast?_append]
        rw [show (p0 :: lp2).getLast? = some ((p0 :: lp2).getLast (by simp)) from
          List.getLast?_eq_getLast _ _]
        rw [hp.2, List.getLast?_eq_getLast _ (by simp)]
        rfl
      · -- unprocessed survives
        refine hcongr _ _ ?_ hu
        intro y hy
        intro hcon
        have h1 : 0 < lu.count y := List.count_pos_iff.mpr hy
        have h2 : 0 < (f0 :: lf2).count y := List.count_pos_iff.mpr (hcon ▸ hzmem)
        have := hcnt y
        omega
      · rw [List.perm_iff_count]
        intro a
        have h := hperm.count_eq a
        simp only [List.count_append, List.count_cons, List.count_nil] at h ⊢
        omega
      · show esS.length = 2 * n
        rw [hesS]
        simp
        omega

/-- `new` establishes the pool invariant with the whole pool on the free
list and nothing checked out. -/
theorem inv_new {n : Nat} {s : CollisionState}
    (h32 : 2 * n < CollisionState.U32)
    (hnew : new n = some s) :
    PoolInv n s [] := by
  rw [new] at hnew
  cases hm : usizeSub (n * 2) 1 with
  | none => rw [hm] at hnew; cases hnew
  | some m =>
    rw [hm] at hnew
    cases ht : usizeSub (n * 2 % U32) 1 with
    | none => rw [ht] at hnew; cases hnew
    | some t =>
      rw [ht] at hnew
      have hmod : n * 2 % U32 = n * 2 := Nat.mod_eq_of_lt (by omega)
      have hm1 : 1 ≤ n * 2 ∧ m = n * 2 - 1 := by
        rw [usizeSub] at hm
        split_ifs at hm with hle
        · injection hm with h; omega
      have ht1 : t = n * 2 - 1 := by
        rw [usizeSub, hmod] at ht
        split_ifs at ht with hle
        · injection ht with h; omega
      injection hnew with hs
      subst hs
      set es : List Entry := (List.range m).map
          (fun i => { data := 0, next := i % CollisionState.U32 + 1 })
          ++ [{ data := 0, next := CollisionState.NIL }] with hes
      have hlen : es.length = n * 2 := by
        rw [hes]
        simp only [List.length_append, List.length_map, List.length_range,
          List.length_cons, List.length_nil]
        omega
      have hgetlt : ∀ j : Nat, j < m →
          es[j]? = some { data := 0, next := j + 1 } := by
        intro j hj
        rw [hes, List.getElem?_append_left (by simpa using hj), List.getElem?_map,
          List.getElem?_range hj]
        have : j % CollisionState.U32 = j := Nat.mod_eq_of_lt (by omega)
        simp [this]
      have hgetm : es[m]? = some { data := 0, next := CollisionState.NIL } := by
        rw [hes, List.getElem?_append_right (by simp)]
        simp
      have hchain : ∀ k j : Nat, j + k = m →
          chainFromTo es j (List.range' j (k + 1) 1) CollisionState.NIL := by
        intro k
        induction k with
        | zero =>
          intro j hj
          refine ⟨rfl, { data := 0, next := CollisionState.NIL }, ?_, rfl⟩
          rw [← hj] at hgetm
          simpa using hgetm
        | succ k ih =>
          intro j hj
          rw [List.range'_succ]
          refine ⟨rfl, { data := 0, next := j + 1 }, hgetlt j (by omega), ?_⟩
          exact ih (j + 1) (by omega)
      refine ⟨List.range (2 * n), [], [], ⟨?_, ?_⟩, ⟨rfl, rfl⟩, ⟨rfl, rfl⟩,
        by simp, rfl, show es.length = 2 * n from by omega, rfl⟩
      · show chainFromTo es 0 (List.range (2 * n)) CollisionState.NIL
        have h2n : 2 * n = m + 1 := by omega
        rw [List.range_eq_range', h2n]
        exact hchain m 0 (by omega)
      · show t = (List.range (2 * n)).getLast?.getD CollisionState.NIL
        have h2n : 2 * n = (2 * n - 1) + 1 := by omega
        rw [h2n, List.range_succ]
        simp
        omega

/-- Every reachable scheduler configuration satisfies the pool invariant. -/
theorem reachable_inv {n : Nat} (h32 : 2 * n < CollisionState.U32) :
    ∀ p : CollisionState × List Nat, Reachable n p → PoolInv n p.1 p.2 := by
  intro p hreach
  obtain ⟨s0, hnew, hrt⟩ := hreach
  induction hrt with
  | refl => exact inv_new h32 hnew
  | tail hab hstep ih =>
    cases hstep with
    | add s s' out d i hok => exact inv_add h32 ih hok
    | deq s s' out i hok => exact inv_deq h32 ih hok
    | markp s s' out i hmem hok => exact inv_markp h32 ih hmem hok
    | marku s s' out i hmem hok => exact inv_marku h32 ih hmem hok
    | freep s s' out hok => exact inv_freep h32 ih hok

/-- The fuel-based list extraction agrees with the chain predicate as soon
as the fuel covers the list. -/
theorem queueListAux_eq (entries : List Entry)
    (hbound : entries.length ≤ CollisionState.NIL) :
    ∀ (l : List Nat) (h : Nat) (fuel : Nat),
      chainFromTo entries h l CollisionState.NIL →
      (∀ y ∈ l, y < entries.length) →
      l.length ≤ fuel →
      queueListAux entries h fuel = l := by
  intro l
  induction l with
  | nil =>
    intro h fuel hchain _ _
    have hh : h = CollisionState.NIL := hchain
    cases fuel with
    | zero => rfl
    | succ f => rw [queueListAux, if_pos hh]
  | cons x xs ih =>
    intro h fuel hchain hmem hfuel
    obtain ⟨hh, e, he, hch2⟩ := hchain
    cases fuel with
    | zero => simp at hfuel
    | succ f =>
      have hxlt : x < entries.length := hmem x (by simp)
      have hhne : h ≠ CollisionState.NIL := by omega
      rw [queueListAux, if_neg hhne, hh, he]
      show x :: queueListAux entries e.next f = x :: xs
      rw [ih e.next f hch2 (fun y hy => hmem y (by simp [hy])) (by simpa using hfuel)]

/-- `queueList` computes the abstract list of any well-formed queue. -/
theorem queueList_eq (entries : List Entry) (q : Queue) (l : List Nat)
    (hbound : entries.length ≤ CollisionState.NIL)
    (hql : isQueueList entries q l)
    (hmem : ∀ y ∈ l, y < entries.length)
    (hlen : l.length ≤ entries.length + 1) :
    queueList entries q = l :=
  queueListAux_eq entries hbound l q.head (entries.length + 1) hql.1 hmem hlen

/-- Under the pool invariant, the computed queue lists of the three queues
together with the checked-out indices are a permutation of the pool, and
`collision_count` is the length of the computed unprocessed list. -/
theorem poolInv_extract {n : Nat} {s : CollisionState} {out : List Nat}
    (h32 : 2 * n < CollisionState.U32) (hinv : PoolInv n s out) :
    (queueList s.entries s.free ++ queueList s.entries s.processing ++
      queueList s.entries s.unprocessed ++ out).Perm (List.range (2 * n)) ∧
    s.collision_count = (queueList s.entries s.unprocessed).length := by
  obtain ⟨lf, lp, lu, hf, hp, hu, hperm, hcount, hlen, hmax⟩ := hinv
  have hcnt := group_counts_le_one hperm
  have hmemlt := group_mem_lt hperm
  have hNILval : CollisionState.NIL + 1 = CollisionState.U32 := by decide
  have hbound : s.entries.length ≤ CollisionState.NIL := by omega
  have extract : ∀ (q : Queue) (l : List Nat), isQueueList s.entries q l →
      (∀ y ∈ l, y ∈ lf ∨ y ∈ lp ∨ y ∈ lu ∨ y ∈ out) → l.Nodup →
      queueList s.entries q = l := by
    intro q l hql hgrp hnd
    have hmem : ∀ y ∈ l, y < s.entries.length := by
      intro y hy; rw [hlen]; exact hmemlt y (hgrp y hy)
    have hsub : l ⊆ List.range (2 * n) := by
      intro y hy
      rw [List.mem_range, ← hlen]
      exact hmem y hy
    have hll : l.length ≤ 2 * n :=
      le_trans (List.subperm_of_subset hnd hsub).length_le (by simp)
    exact queueList_eq s.entries q l hbound hql hmem (by omega)
  have hndf : lf.Nodup := by
    rw [List.nodup_iff_count_le_one]; intro a; have := hcnt a; omega
  have hndp : lp.Nodup := by
    rw [List.nodup_iff_count_le_one]; intro a; have := hcnt a; omega
  have hndu : lu.Nodup := by
    rw [List.nodup_iff_count_le_one]; intro a; have := hcnt a; omega
  rw [extract s.free lf hf (fun y hy => Or.inl hy) hndf,
    extract s.processing lp hp (fun y hy => Or.inr (Or.inl hy)) hndp,
    extract s.unprocessed lu hu (fun y hy => Or.inr (Or.inr (Or.inl hy))) hndu]
  exact ⟨hperm, hcount⟩

/-- A successful `mark_entry_unprocessed` increments `collision_count` by
one. -/
theorem count_marku {s s2 : CollisionState} {i : Nat}
    (hok : mark_entry_unprocessed s i = .ok () s2) :
    s2.collision_count = s.collision_count + 1 := by
  rw [mark_entry_unprocessed] at hok
  split at hok
  · dsimp only at hok
    split at hok
    · cases hok
    · injection hok with _ hs
      subst hs
      rfl
  · cases hok

/-- A successful `add_unprocessed` increments `collision_count` by one. -/
theorem count_add {s s2 : CollisionState} {d i : Nat}
    (hok : add_unprocessed s d = .ok i s2) :
    s2.collision_count = s.collision_count + 1 := by
  rw [add_unprocessed] at hok
  split at hok
  · cases hok
  · split at hok
    · cases hok
    · dsimp only at hok
      split at hok
      · cases hok
      · split at hok
        case _ s3 heq =>
          have h := count_marku heq
          injection hok with hi hs
          subst hs
          exact h
        · cases hok

/-- A successful `dequeue_unprocessed` decrements `collision_count` by one. -/
theorem count_deq {s s2 : CollisionState} {i : Nat}
    (hok : dequeue_unprocessed s = .ok i s2) :
    s.collision_count = s2.collision_count + 1 := by
  rw [dequeue_unprocessed] at hok
  cases husub : usizeSub s.collision_count 1 with
  | none => rw [husub] at hok; cases hok
  | some c =>
    rw [husub] at hok
    cases hd : dequeue s.unprocessed s.entries with
    | error e => rw [hd] at hok; cases hok
    | ok p =>
      obtain ⟨j, q⟩ := p
      rw [hd] at hok
      injection hok with hi hs
      subst hs
      have hc : c = s.collision_count - 1 ∧ 1 ≤ s.collision_count := by
        rw [usizeSub] at husub
        split_ifs at husub with hle
        · injection husub with h; omega
      show s.collision_count = c + 1
      omega

/-- A successful `mark_entry_processing` leaves `collision_count` unchanged. -/
theorem count_markp {s s2 : CollisionState} {i : Nat}
    (hok : mark_entry_processing s i = .ok () s2) :
    s2.collision_count = s.collision_count := by
  rw [mark_entry_processing] at hok
  cases he : enqueue s.processing s.entries i with
  | error e => rw [he] at hok; cases hok
  | ok p =>
    obtain ⟨q, es⟩ := p
    rw [he] at hok
    injection hok with _ hs
    subst hs
    rfl

/-- A successful `free_processing` leaves `collision_count` unchanged. -/
theorem count_freep {s s2 : CollisionState}
    (hok : free_processing s = .ok () s2) :
    s2.collision_count = s.collision_count := by
  rw [free_processing] at hok
  split_ifs at hok with h1 h2
  · injection hok with _ hs; subst hs; rfl
  · injection hok with _ hs; subst hs; rfl
  · cases hsn : setNextEntry s.entries s.free.tail s.processing.head with
    | none => rw [hsn] at hok; cases hok
    | some es => rw [hsn] at hok; injection hok with _ hs; subst hs; rfl

/-- **C3 (counterexample).** The state reached from `new 1` by
`add_unprocessed` followed by `dequeue_unprocessed` is reachable with the
dequeued index `0` checked out, and the three queue lists together hold
only one of the two pool indices: the dequeued entry is linked into no
queue, so "every pool index belongs to exactly one of the free, processing,
unprocessed lists, and the sum of the three list lengths equals
2*max_collision_count" fails at this observable point. -/
theorem c3_counterexample :
    Reachable 1 (csAfterDeq, [0]) ∧
    (queueList csAfterDeq.entries csAfterDeq.free).length +
      (queueList csAfterDeq.entries csAfterDeq.processing).length +
      (queueList csAfterDeq.entries csAfterDeq.unprocessed).length ≠ 2 * 1 := by
  constructor
  · exact ⟨csInit1, by decide,
      Relation.ReflTransGen.tail
        (Relation.ReflTransGen.single
          (Step.add csInit1 csAfterAdd [] 0 0 (by decide)))
        (Step.deq csAfterAdd csAfterDeq [] 0 (by decide))⟩
  · decide

/-- **C3 (amended).** For every reachable scheduler configuration
`(s, out)` (where `out` collects the indices handed out by
`dequeue_unprocessed` and not yet re-marked), the three queue lists
together with `out` are a permutation of the pool `0 .. 2n-1`; hence the
three list lengths plus the number of checked-out indices sum to `2n`,
every pool index lies in exactly one of the four groups (in particular in
at most one queue), and whenever nothing is checked out the original exact
partition — three list lengths summing to `2 * max_collision_count` —
holds. -/
theorem c3_queue_partition {n : Nat} {s : CollisionState} {out : List Nat}
    (h32 : 2 * n < CollisionState.U32)
    (hreach : Reachable n (s, out)) :
    (queueList s.entries s.free ++ queueList s.entries s.processing ++
      queueList s.entries s.unprocessed ++ out).Perm (List.range (2 * n)) ∧
    (queueList s.entries s.free).length +
      (queueList s.entries s.processing).length +
      (queueList s.entries s.unprocessed).length + out.length = 2 * n ∧
    (∀ i, i < 2 * n →
      (queueList s.entries s.free).count i +
      (queueList s.entries s.processing).count i +
      (queueList s.entries s.unprocessed).count i + out.count i = 1) ∧
    (out = [] →
      (queueList s.entries s.free).length +
      (queueList s.entries s.processing).length +
      (queueList s.entries s.unprocessed).length = 2 * n) := by
  have hinv := reachable_inv h32 (s, out) hreach
  obtain ⟨hperm, _⟩ := poolInv_extract h32 hinv
  have hlen := hperm.length_eq
  simp only [List.length_append, List.length_range] at hlen
  refine ⟨hperm, by omega, ?_, ?_⟩
  · intro i hi
    have h := hperm.count_eq i
    have hr : (List.range (2 * n)).count i = 1 :=
      List.count_eq_one_of_mem (List.nodup_range (2 * n)) (List.mem_range.mpr hi)
    simp only [List.count_append] at h
    omega
  · intro hout
    subst hout
    simp only [List.length_nil] at hlen
    omega

/-- **C3 (witness).** At the freshly created two-slot scheduler nothing is
checked out and the partition equation holds. -/
theorem c3_queue_partition_witness :
    (queueList csInit1.entries csInit1.free).length +
    (queueList csInit1.entries csInit1.processing).length +
    (queueList csInit1.entries csInit1.unprocessed).length = 2 * 1 :=
  (@c3_queue_partition 1 csInit1 [] (by decide)
    ⟨csInit1, by decide, Relation.ReflTransGen.refl⟩).2.2.2 rfl

/-- **C4.** On every reachable scheduler configuration, `collision_count`
equals the number of entries linked into the `unprocessed` queue; moreover
a successful `add_unprocessed` or `mark_entry_unprocessed` increments it by
exactly one (each appends one entry to `unprocessed`), a successful
`dequeue_unprocessed` decrements it by exactly one, and
`mark_entry_processing` and `free_processing` leave it unchanged. -/
theorem c4_collision_count {n : Nat} {s : CollisionState} {out : List Nat}
    (h32 : 2 * n < CollisionState.U32)
    (hreach : Reachable n (s, out)) :
    s.collision_count = (queueList s.entries s.unprocessed).length ∧
    (∀ d i s2, add_unprocessed s d = .ok i s2 →
      s2.collision_count = s.collision_count + 1) ∧
    (∀ i s2, mark_entry_unprocessed s i = .ok () s2 →
      s2.collision_count = s.collision_count + 1) ∧
    (∀ i s2, dequeue_unprocessed s = .ok i s2 →
      s.collision_count = s2.collision_count + 1) ∧
    (∀ i s2, mark_entry_processing s i = .ok () s2 →
      s2.collision_count = s.collision_count) ∧
    (∀ s2, free_processing s = .ok () s2 →
      s2.collision_count = s.collision_count) := by
  have hinv := reachable_inv h32 (s, out) hreach
  refine ⟨(poolInv_extract h32 hinv).2, ?_, ?_, ?_, ?_, ?_⟩
  · intro d i s2 hok; exact count_add hok
  · intro i s2 hok; exact count_marku hok
  · intro i s2 hok; exact count_deq hok
  · intro i s2 hok; exact count_markp hok
  · intro s2 hok; exact count_freep hok

/-- **C4 (witness).** After `new 1` followed by one `add_unprocessed`, the
counter reads `1` and indeed equals the length of the unprocessed list. -/
theorem c4_collision_count_witness :
    csAfterAdd.collision_count =
      (queueList csAfterAdd.entries csAfterAdd.unprocessed).length :=
  (@c4_collision_count 1 csAfterAdd [] (by decide)
    ⟨csInit1, by decide,
      Relation.ReflTransGen.single
        (Step.add csInit1 csAfterAdd [] 0 0 (by decide))⟩).1

/-- **C10 (counterexample).** On the reachable state `new 1` (whose
`unprocessed` queue is empty and whose counter is zero),
`dequeue_unprocessed` aborts with the underflow of the checked
`collision_count -= 1` — but the state carried by the abort is exactly the
input state: the counter is NOT mutated before the failure, because in
debug builds the checked subtraction panics before writing back.  This
refutes the claim's final clause that "the state is not left unchanged on
this error". -/
theorem c10_counterexample :
    Reachable 1 (csInit1, []) ∧
    is_empty csInit1.unprocessed = true ∧
    dequeue_unprocessed csInit1 = .fatal .subUnderflow csInit1 :=
  ⟨⟨csInit1, by decide, Relation.ReflTransGen.refl⟩, by decide, by decide⟩

/-- **C10 (amended).** On every reachable state whose `unprocessed` queue
is empty, `collision_count` is zero and `dequeue_unprocessed` fails through
the unsigned underflow of the decrement — before the queue's own empty
check is ever consulted: any state with a zero counter fails the same way
regardless of its queue — and the state carried by the abort is the input
state unchanged. -/
theorem c10_underflow_on_empty {n : Nat} {s : CollisionState}
    {out : List Nat}
    (h32 : 2 * n < CollisionState.U32)
    (hreach : Reachable n (s, out))
    (hempty : is_empty s.unprocessed = true) :
    s.collision_count = 0 ∧
    dequeue_unprocessed s = .fatal .subUnderflow s ∧
    (∀ s' : CollisionState, s'.collision_count = 0 →
      dequeue_unprocessed s' = .fatal .subUnderflow s') := by
  have key : ∀ s' : CollisionState, s'.collision_count = 0 →
      dequeue_unprocessed s' = .fatal .subUnderflow s' := by
    intro s' hz
    rw [dequeue_unprocessed, hz]
    rfl
  have hinv := reachable_inv h32 (s, out) hreach
  obtain ⟨lf, lp, lu, hf, hp, hu, hperm, hcount, hlen, hmax⟩ := hinv
  have hmemlt := group_mem_lt hperm
  have hNILval : CollisionState.NIL + 1 = CollisionState.U32 := by decide
  have hcz : s.collision_count = 0 := by
    cases lu with
    | nil => rw [hcount]; rfl
    | cons u0 lu2 =>
      exfalso
      have hh : s.unprocessed.head = u0 := hu.1.1
      have hlt : u0 < 2 * n := hmemlt u0 (Or.inr (Or.inr (Or.inl (by simp))))
      have hnil : s.unprocessed.head = CollisionState.NIL := by
        simpa [is_empty] using hempty
      omega
  exact ⟨hcz, key s hcz, key⟩

/-- **C10 (amended, witness).** The fresh two-slot scheduler has an empty
unprocessed queue, and the call aborts with `subUnderflow` carrying the
unchanged state. -/
theorem c10_underflow_on_empty_witness :
    csInit1.collision_count = 0 ∧
    dequeue_unprocessed csInit1 = .fatal .subUnderflow csInit1 :=
  ⟨(@c10_underflow_on_empty 1 csInit1 [] (by decide)
      ⟨csInit1, by decide, Relation.ReflTransGen.refl⟩ (by decide)).1,
   (@c10_underflow_on_empty 1 csInit1 [] (by decide)
      ⟨csInit1, by decide, Relation.ReflTransGen.refl⟩ (by decide)).2.1⟩

end CollisionProofs

end ArkMsm
